/-
  Verification of the in-memory core of runninghai/leveldb:
  Arena (util/arena), ByteRange/Slice (include/leveldb/slice.h, first part),
  Varint codec (util/coding.cc) and the SkipList (include/leveldb/slice.h,
  second part).

  Shallow embedding conventions:
  * bytes of memory are natural numbers (always < 256 when produced by the
    code; the decoders read them through the same bit operations the C code
    uses, so no global bound is assumed);
  * C pointers into a byte buffer become (offset, length) pairs over an
    explicit memory list;
  * unsigned C arithmetic is Nat arithmetic with an explicit mod 2^32 or
    2^64 where a C expression truncates;
  * fallible code returns Option or threads an explicit Bool, mirroring the
    nullptr / bool conventions of the source;
  * the skip list's pointer graph lives inside a list of nodes; a pointer is
    an Option Nat index into that list, index 0 being the head sentinel
    (the arena is abstracted into this list: the source never frees nodes).
-/
import Mathlib

namespace LevelDB

/-! ## Comparators

The SkipList is templated over a comparator returning an Int with the usual
three-way convention (see Slice::compare's documented contract and the
SkipList template parameter).  The proofs only use the following laws, which
hold for every strict total order comparator (the spec requires a
strict total-order Compare). -/

/-- Laws of a three-way comparator: antisymmetry of sign, transitivity of
the strict order, and substitutability of comparator-equal elements. -/
structure IsCmp {K : Type} (cmp : K → K → Int) : Prop where
  asym : ∀ a b, cmp a b < 0 ↔ 0 < cmp b a
  lt_trans : ∀ a b c, cmp a b < 0 → cmp b c < 0 → cmp a c < 0
  congr_left_lt : ∀ a b c, cmp a b = 0 → (cmp a c < 0 ↔ cmp b c < 0)
  congr_left_eq : ∀ a b c, cmp a b = 0 → (cmp a c = 0 ↔ cmp b c = 0)

/-- The comparator induced by the order on Nat, used to instantiate the
generic theorems on concrete inputs. -/
def natCmp (a b : Nat) : Int := if a < b then -1 else if b < a then 1 else 0

/-! ## Varint codec (util/coding.cc)

EncodeVarint32 is the unrolled five-case encoder; EncodeVarint64 is the
loop encoder.  Each `*(ptr++) = e` store truncates the C expression `e` to
a byte, modelled as `e % 256`.  The decoders GetVarint32PtrFallback and
GetVarint64Ptr read bytes from `p` up to `limit`; we model the readable
range `[p, limit)` as a byte list and return, on success, the decoded value
together with the number of bytes consumed (the C functions return
`p + consumed` and write the value through the out pointer; they return
nullptr and leave the out location untouched on failure, which the Option
result captures). -/

/-- EncodeVarint32 (coding.cc lines 21-52): unrolled little-endian base-128
encoder for a uint32 value. -/
def EncodeVarint32 (v : Nat) : List Nat :=
  if v < 2 ^ 7 then
    [v % 256]
  else if v < 2 ^ 14 then
    [(v ||| 128) % 256, (v >>> 7) % 256]
  else if v < 2 ^ 21 then
    [(v ||| 128) % 256, ((v >>> 7) ||| 128) % 256, (v >>> 14) % 256]
  else if v < 2 ^ 28 then
    [(v ||| 128) % 256, ((v >>> 7) ||| 128) % 256, ((v >>> 14) ||| 128) % 256,
      (v >>> 21) % 256]
  else
    [(v ||| 128) % 256, ((v >>> 7) ||| 128) % 256, ((v >>> 14) ||| 128) % 256,
      ((v >>> 21) ||| 128) % 256, (v >>> 28) % 256]

/-- EncodeVarint64 (coding.cc lines 65-74): loop encoder.  While v >= 128
emit the low seven bits with the continuation bit, then emit the final
byte. -/
def EncodeVarint64 (v : Nat) : List Nat :=
  if h : 128 ≤ v then
    (v ||| 128) % 256 :: EncodeVarint64 (v >>> 7)
  else
    [v % 256]
  decreasing_by
    rw [Nat.shiftRight_eq_div_pow]
    exact Nat.div_lt_self (by omega) (by norm_num)

/-- GetVarint32PtrFallback (coding.cc lines 98-120).  The loop runs while
shift <= 28 and p < limit; a byte with the high bit set contributes its
low seven bits and continues, a terminator byte finishes and the value is
produced; leaving the loop (shift > 28 or limit reached) yields nullptr,
modelled as none.  All 32-bit C expressions carry their mod 2^32
truncation. -/
def GetVarint32PtrFallback : List Nat → Nat → Nat → Nat → Option (Nat × Nat)
  | [], _, _, _ => none
  | b :: rest, shift, result, consumed =>
    if 28 < shift then none
    else if b &&& 128 ≠ 0 then
      GetVarint32PtrFallback rest (shift + 7)
        (result ||| ((b &&& 127) <<< shift % 2 ^ 32)) (consumed + 1)
    else
      some (result ||| (b <<< shift % 2 ^ 32), consumed + 1)

/-- GetVarint64Ptr (coding.cc lines 136-151): same loop with shift <= 63
and 64-bit truncation. -/
def GetVarint64Ptr : List Nat → Nat → Nat → Nat → Option (Nat × Nat)
  | [], _, _, _ => none
  | b :: rest, shift, result, consumed =>
    if 63 < shift then none
    else if b &&& 128 ≠ 0 then
      GetVarint64Ptr rest (shift + 7)
        (result ||| ((b &&& 127) <<< shift % 2 ^ 64)) (consumed + 1)
    else
      some (result ||| (b <<< shift % 2 ^ 64), consumed + 1)

/-! ### Slice-level decoders

A C Slice into a byte buffer is an (offset, length) pair over an explicit
memory list; Slice(q, limit - q) after a decode that consumed `c` bytes is
the pair (pos + c, len - c).  GetVarint32 (coding.cc lines 123-134) calls
GetVarint32Ptr, the header's inline wrapper around GetVarint32PtrFallback;
the wrapper's one-byte fast path returns exactly what the fallback returns
on the same input, so the fallback stands for both. -/

/-- A Slice value: a data pointer (offset into the ambient memory) and a
length, as in Slice(data, size). -/
structure CSlice where
  pos : Nat
  len : Nat
deriving DecidableEq

/-- The bytes a CSlice designates inside the memory list. -/
def sliceBytes (mem : List Nat) (s : CSlice) : List Nat :=
  (mem.drop s.pos).take s.len

/-- GetVarint32 on a Slice (coding.cc lines 123-134): returns the success
flag together with the final contents of *input and *value. -/
def GetVarint32 (mem : List Nat) (input : CSlice) (value : Nat) :
    Bool × CSlice × Nat :=
  match GetVarint32PtrFallback (sliceBytes mem input) 0 0 0 with
  | none => (false, input, value)
  | some (v, c) => (true, ⟨input.pos + c, input.len - c⟩, v)

/-- GetVarint64 on a Slice (coding.cc lines 153-163). -/
def GetVarint64 (mem : List Nat) (input : CSlice) (value : Nat) :
    Bool × CSlice × Nat :=
  match GetVarint64Ptr (sliceBytes mem input) 0 0 0 with
  | none => (false, input, value)
  | some (v, c) => (true, ⟨input.pos + c, input.len - c⟩, v)

/-- GetLengthPrefixedSlice on a Slice (coding.cc lines 175-187).  The local
uint32 len is uninitialized in C and only read after GetVarint32 succeeds;
we pass 0 as its initial contents.  On the success path *result becomes
Slice(input->data(), len) and input loses its first len bytes. -/
def GetLengthPrefixedSlice (mem : List Nat) (input result : CSlice) :
    Bool × CSlice × CSlice :=
  match GetVarint32 mem input 0 with
  | (true, input1, l) =>
    if l ≤ input1.len then
      (true, ⟨input1.pos + l, input1.len - l⟩, ⟨input1.pos, l⟩)
    else
      (false, input1, result)
  | (false, input1, _) => (false, input1, result)

/-! ## Slice::compare (include/leveldb/slice.h lines 120-135)

A Slice's referenced bytes are modelled as the byte list they denote;
memcmp over unsigned chars returns the sign of the first differing byte. -/

/-- memcmp on two byte lists of equal length (the source always calls it
with min_len bytes from each side). -/
def memcmpBytes : List Nat → List Nat → Int
  | a :: as, b :: bs =>
    if a < b then -1 else if b < a then 1 else memcmpBytes as bs
  | _, _ => 0

/-- Slice::compare: memcmp on the first min_len bytes, ties broken by
length. -/
def sliceCompare (x y : List Nat) : Int :=
  let minLen := min x.length y.length
  let r := memcmpBytes (x.take minLen) (y.take minLen)
  if r = 0 then
    if x.length < y.length then -1
    else if y.length < x.length then 1
    else 0
  else r

/-! ## Arena (src/unnamed/part_000 and part_001)

Addresses returned by the host allocator are abstract: AllocateNewBlock
draws a fresh base address from a counter and records (base, size) in the
block list.  sizeof(char*) is 8 on the modelled platform. -/

namespace Arena

def kBlockSize : Nat := 4096

def ptrSize : Nat := 8

structure State where
  allocPtr : Nat
  allocBytesRemaining : Nat
  blocks : List (Nat × Nat)
  memoryUsage : Nat
  nextFresh : Nat
deriving DecidableEq

/-- Arena::Arena(): null bump pointer, no remaining bytes, no blocks. -/
def arenaNew : State := ⟨0, 0, [], 0, 1⟩

/-- Arena::AllocateNewBlock (part_001 lines 73-82): new char[block_bytes],
push_back, fetch_add(block_bytes + sizeof(char*)). -/
def AllocateNewBlock (a : State) (blockBytes : Nat) : Nat × State :=
  (a.nextFresh,
    { a with
      blocks := a.blocks ++ [(a.nextFresh, blockBytes)]
      memoryUsage := a.memoryUsage + blockBytes + ptrSize
      nextFresh := a.nextFresh + blockBytes + 1 })

/-- Arena::AllocateFallback (part_001 lines 21-42). -/
def AllocateFallback (a : State) (bytes : Nat) : Nat × State :=
  if kBlockSize / 4 < bytes then
    AllocateNewBlock a bytes
  else
    let p := AllocateNewBlock a kBlockSize
    (p.1,
      { p.2 with
        allocPtr := p.1 + bytes
        allocBytesRemaining := kBlockSize - bytes })

/-- Arena::Allocate (part_000 lines 64-79): bump-pointer fast path when
bytes <= alloc_bytes_remaining_, otherwise AllocateFallback. -/
def Allocate (a : State) (bytes : Nat) : Nat × State :=
  if bytes ≤ a.allocBytesRemaining then
    (a.allocPtr,
      { a with
        allocPtr := a.allocPtr + bytes
        allocBytesRemaining := a.allocBytesRemaining - bytes })
  else
    AllocateFallback a bytes

end Arena

/-! ## SkipList (include/leveldb/slice.h lines 141-628)

The skip list's nodes live in an arena and are never freed, so the heap of
nodes is a list `nodes`; a C Node* is an Option Nat index into it (none is
nullptr), and index 0 is the head sentinel built by the constructor.  A
node holds its immutable key and its forward-pointer array next_, whose
length is the height chosen at NewNode time.  Reading next_[L] beyond a
node's height never happens in executions the invariant allows, and is
modelled as none.

The searches are loops whose termination in C follows from the acyclicity
of the lists; here they take explicit fuel, and the correctness lemmas show
the provided fuel is never exhausted on well-formed lists.

Insert draws its height from RandomHeight(), which lives in util/random.h
(not part of this repository's sources); its asserted contract (slice.h
lines 446-447) is 1 <= height <= kMaxHeight.  Insert here takes the height
as an explicit argument, and the theorems quantify over every height
sequence in that range, so they cover every possible RandomHeight
behaviour.  Insert's C loop reads prev[i]->NoBarrier_Next(i) at iteration
i; iterations j < i only store into next_[j] of prev[j] and into the new
node, never into next_[i] of prev[i], so those reads equal the pre-insert
pointers and the new node's forward array can be computed up front, after
which linkLoop replays the publication stores prev[i]->SetNext(i, x) in
program order. -/

namespace SkipL

def kMaxHeight : Nat := 12

structure Node (K : Type) where
  key : K
  next : List (Option Nat)
deriving DecidableEq

structure SL (K : Type) where
  nodes : List (Node K)
  maxHeight : Nat
deriving DecidableEq

variable {K : Type}

/-- The SkipList constructor (slice.h lines 533-544): a head node of height
kMaxHeight with all forward pointers null (its key is arbitrary and never
compared), and max_height_ = 1. -/
def slNew (dummy : K) : SL K :=
  ⟨[⟨dummy, List.replicate kMaxHeight none⟩], 1⟩

/-- Node::Next(L) read on the node at index i of a node list. -/
def nextInNodes (nodes : List (Node K)) (i L : Nat) : Option Nat :=
  match nodes[i]? with
  | some n => n.next.getD L none
  | none => none

def nextPtr (s : SL K) (i L : Nat) : Option Nat := nextInNodes s.nodes i L

/-- The height of the node at index i (length of its forward array). -/
def heightOf (s : SL K) (i : Nat) : Nat :=
  match s.nodes[i]? with
  | some n => n.next.length
  | none => 0

/-- head_->Next(L). -/
def headNext (s : SL K) (L : Nat) : Option Nat := nextPtr s 0 L

/-- KeyIsAfterNode (slice.h lines 451-455): null n is treated as infinite. -/
def KeyIsAfterNode (cmp : K → K → Int) (s : SL K) (key : K) :
    Option Nat → Bool
  | none => false
  | some i =>
    match s.nodes[i]? with
    | some n => decide (cmp n.key key < 0)
    | none => false

/-- FindGreaterOrEqual (slice.h lines 458-483), with explicit fuel.  The
prev array is always recorded (callers that pass nullptr simply ignore
it). -/
def FindGreaterOrEqualAux (cmp : K → K → Int) (s : SL K) (key : K) :
    Nat → Nat → Nat → List Nat → Option Nat × List Nat
  | 0, _, _, prev => (none, prev)
  | fuel + 1, x, level, prev =>
    let nxt := nextPtr s x level
    if KeyIsAfterNode cmp s key nxt then
      FindGreaterOrEqualAux cmp s key fuel (nxt.getD 0) level prev
    else
      let prev1 := prev.set level x
      if level = 0 then (nxt, prev1)
      else FindGreaterOrEqualAux cmp s key fuel x (level - 1) prev1

/-- Fuel that the correctness lemmas show is sufficient on well-formed
lists: one down-step per level plus at most one horizontal step per node
per level. -/
def searchFuel (s : SL K) : Nat := s.maxHeight * (s.nodes.length + 1) + 1

def FindGreaterOrEqual (cmp : K → K → Int) (s : SL K) (key : K) :
    Option Nat × List Nat :=
  FindGreaterOrEqualAux cmp s key (searchFuel s) 0 (s.maxHeight - 1)
    (List.replicate kMaxHeight 0)

/-- Contains (slice.h lines 616-624). -/
def Contains (cmp : K → K → Int) (s : SL K) (key : K) : Bool :=
  match (FindGreaterOrEqual cmp s key).1 with
  | some i =>
    match s.nodes[i]? with
    | some n => decide (cmp key n.key = 0)
    | none => false
  | none => false

/-- prev[i]->SetNext(i, p): one publication store. -/
def setNextInNodes (nodes : List (Node K)) (i L : Nat) (p : Option Nat) :
    List (Node K) :=
  match nodes[i]? with
  | some nd => nodes.set i ⟨nd.key, nd.next.set L p⟩
  | none => nodes

/-- The Insert publication loop (slice.h lines 589-613): for i in [0, h)
store the new node into prev[i]'s level-i forward pointer. -/
def linkLoop (pr : List Nat) (newIdx : Nat) :
    Nat → List (Node K) → List (Node K)
  | 0, nodes => nodes
  | i + 1, nodes =>
    setNextInNodes (linkLoop pr newIdx i nodes) (pr.getD i 0) i (some newIdx)

/-- The prev[i] = head_ loop for the new levels (slice.h lines 572-575):
set entries [lo, lo + n) to the head index 0. -/
def padPrev (lo : Nat) : Nat → List Nat → List Nat
  | 0, pr => pr
  | n + 1, pr => ((padPrev lo n) pr).set (lo + n) 0

/-- Insert (slice.h lines 556-614) with the sampled height as an explicit
argument (see the section comment).  The new node's forward array holds
prev[i]->NoBarrier_Next(i) read from the pre-insert state, which the C
iteration order makes equal to what the interleaved loop reads. -/
def Insert (cmp : K → K → Int) (s : SL K) (key : K) (h : Nat) : SL K :=
  let pr0 := (FindGreaterOrEqual cmp s key).2
  let pr := if s.maxHeight < h then padPrev s.maxHeight (h - s.maxHeight) pr0
    else pr0
  let mh1 := if s.maxHeight < h then h else s.maxHeight
  let newIdx := s.nodes.length
  let newNexts := (List.range h).map (fun i => nextPtr s (pr.getD i 0) i)
  ⟨linkLoop pr newIdx h (s.nodes ++ [⟨key, newNexts⟩]), mh1⟩

/-- FindLessThan (slice.h lines 486-509), with explicit fuel; on fuel
exhaustion it returns the current node, which keeps the reachability
lemmas uniform. -/
def FindLessThanAux (cmp : K → K → Int) (s : SL K) (key : K) :
    Nat → Nat → Nat → Nat
  | 0, x, _ => x
  | fuel + 1, x, level =>
    let nxt := nextPtr s x level
    if KeyIsAfterNode cmp s key nxt then
      FindLessThanAux cmp s key fuel (nxt.getD 0) level
    else if level = 0 then x
    else FindLessThanAux cmp s key fuel x (level - 1)

def FindLessThan (cmp : K → K → Int) (s : SL K) (key : K) : Nat :=
  FindLessThanAux cmp s key (searchFuel s) 0 (s.maxHeight - 1)

/-- FindLast (slice.h lines 513-531), with explicit fuel. -/
def FindLastAux (s : SL K) : Nat → Nat → Nat → Nat
  | 0, x, _ => x
  | fuel + 1, x, level =>
    match nextPtr s x level with
    | some j => FindLastAux s fuel j level
    | none =>
      if level = 0 then x
      else FindLastAux s fuel x (level - 1)

def FindLast (s : SL K) : Nat :=
  FindLastAux s (searchFuel s) 0 (s.maxHeight - 1)

/-! ### Iterator (slice.h lines 221-260 and 382-435) -/

structure Iter where
  node : Option Nat
deriving DecidableEq

/-- Iterator::Iterator(list): node_ = nullptr. -/
def iterNew : Iter := ⟨none⟩

/-- Iterator::Valid(): node_ != nullptr. -/
def Valid (it : Iter) : Bool := it.node.isSome

/-- Iterator::key() (requires Valid). -/
def iterKey [Inhabited K] (s : SL K) (it : Iter) : K :=
  match it.node with
  | some i =>
    match s.nodes[i]? with
    | some n => n.key
    | none => default
  | none => default

/-- Iterator::Seek(target). -/
def Seek (cmp : K → K → Int) (s : SL K) (target : K) : Iter :=
  ⟨(FindGreaterOrEqual cmp s target).1⟩

/-- Iterator::SeekToFirst(). -/
def SeekToFirst (s : SL K) : Iter := ⟨headNext s 0⟩

/-- Iterator::SeekToLast(): FindLast, then null out the head. -/
def SeekToLast (s : SL K) : Iter :=
  let j := FindLast s
  ⟨if j = 0 then none else some j⟩

/-- Iterator::Next() (requires Valid). -/
def Next (s : SL K) (it : Iter) : Iter :=
  match it.node with
  | some i => ⟨nextPtr s i 0⟩
  | none => it

/-- Iterator::Prev() (requires Valid): FindLessThan on the current key,
then null out the head. -/
def Prev [Inhabited K] (cmp : K → K → Int) (s : SL K) (it : Iter) : Iter :=
  match it.node with
  | some i =>
    let j := FindLessThan cmp s (iterKey s ⟨some i⟩)
    ⟨if j = 0 then none else some j⟩
  | none => it

/-! ### Chains: the per-level pointer structure as lists -/

/-- A chain under a next-pointer function: follow f from pointer p through
exactly the indices of c, ending at none; every index is below the bound. -/
inductive FChain (bound : Nat) (f : Nat → Option Nat) :
    Option Nat → List Nat → Prop where
  | nil : FChain bound f none []
  | cons (i : Nat) (c : List Nat) (hi : i < bound)
      (hc : FChain bound f (f i) c) : FChain bound f (some i) (i :: c)

/-- A chain segment: follow f from p through c, ending at pointer q. -/
inductive FSeg (bound : Nat) (f : Nat → Option Nat) :
    Option Nat → List Nat → Option Nat → Prop where
  | nil (p : Option Nat) : FSeg bound f p [] p
  | cons (i : Nat) (c : List Nat) (q : Option Nat) (hi : i < bound)
      (hc : FSeg bound f (f i) c q) : FSeg bound f (some i) (i :: c) q

/-- The level-L chain of s starting at pointer p. -/
def IsChain (s : SL K) (L : Nat) (p : Option Nat) (c : List Nat) : Prop :=
  FChain s.nodes.length (fun i => nextPtr s i L) p c

/-- Key order between two node indices. -/
def nodeKeyLt (cmp : K → K → Int) (s : SL K) (i j : Nat) : Prop :=
  ∃ ni nj, s.nodes[i]? = some ni ∧ s.nodes[j]? = some nj ∧ cmp ni.key nj.key < 0

def chainSorted (cmp : K → K → Int) (s : SL K) (c : List Nat) : Prop :=
  c.Pairwise (nodeKeyLt cmp s)

/-- The well-formedness invariant of a skip list state: head sentinel of
full height at index 0, max_height_ within bounds, node heights within
bounds, head pointers null at and above max_height_, and for every level a
strictly sorted chain from the head containing exactly the non-head nodes
taller than that level. -/
structure WF (cmp : K → K → Int) (s : SL K) : Prop where
  head_ex : ∃ hd, s.nodes[0]? = some hd ∧ hd.next.length = kMaxHeight
  mh_pos : 1 ≤ s.maxHeight
  mh_le : s.maxHeight ≤ kMaxHeight
  height_pos : ∀ i, 1 ≤ i → i < s.nodes.length → 1 ≤ heightOf s i
  height_le : ∀ i, 1 ≤ i → i < s.nodes.length → heightOf s i ≤ kMaxHeight
  high_null : ∀ L, s.maxHeight ≤ L → L < kMaxHeight → headNext s L = none
  chains : ∀ L, L < kMaxHeight → ∃ c, IsChain s L (headNext s L) c ∧
    chainSorted cmp s c ∧
    ∀ i, i ∈ c ↔ (1 ≤ i ∧ i < s.nodes.length ∧ L < heightOf s i)

/-- Node i's key is strictly below k (the Bool the search loops branch
on). -/
def ltNodeB (cmp : K → K → Int) (s : SL K) (k : K) (i : Nat) : Bool :=
  KeyIsAfterNode cmp s k (some i)

/-- The node FindGreaterOrEqual must return: the first chain element whose
key is not below k. -/
def firstGE (cmp : K → K → Int) (s : SL K) (k : K) (c : List Nat) :
    Option Nat :=
  c.find? (fun i => ! ltNodeB cmp s k i)

/-- The node the search records into prev: the last chain element whose key
is below k, the head index 0 if there is none. -/
def lastLT (cmp : K → K → Int) (s : SL K) (k : K) (c : List Nat) : Nat :=
  ((c.takeWhile (ltNodeB cmp s k)).getLast?).getD 0

/-! ### Effect of the Insert publication stores on the node heap -/

def heightInNodes (nodes : List (Node K)) (i : Nat) : Nat :=
  match nodes[i]? with
  | some n => n.next.length
  | none => 0

def keyAtN (nodes : List (Node K)) (i : Nat) : Option K :=
  (nodes[i]?).map (fun n => n.key)

/-- The prev array Insert works with: the one FindGreaterOrEqual filled,
with entries [maxHeight, h) set to the head by the padding loop. -/
def insPrev (cmp : K → K → Int) (s : SL K) (key : K) (h : Nat) : List Nat :=
  if s.maxHeight < h then
    padPrev s.maxHeight (h - s.maxHeight) (FindGreaterOrEqual cmp s key).2
  else (FindGreaterOrEqual cmp s key).2

/-- The forward array of the node Insert creates. -/
def insNexts (cmp : K → K → Int) (s : SL K) (key : K) (h : Nat) :
    List (Option Nat) :=
  (List.range h).map (fun i => nextPtr s ((insPrev cmp s key h).getD i 0) i)

/-- Building a skip list by a sequence of Inserts on a fresh list. -/
def foldInserts (cmp : K → K → Int) (dummy : K) (ops : List (K × Nat)) :
    SL K :=
  ops.foldl (fun t p => Insert cmp t p.1 p.2) (slNew dummy)

/-- The iterator states reachable from a fresh Iterator by Seek,
SeekToFirst, SeekToLast, Next and Prev, the latter two only from Valid
states (their REQUIRES). -/
inductive Reach [Inhabited K] (cmp : K → K → Int) (s : SL K) : Iter → Prop
  | init : Reach cmp s iterNew
  | seek (t : K) (it : Iter) : Reach cmp s it → Reach cmp s (Seek cmp s t)
  | first (it : Iter) : Reach cmp s it → Reach cmp s (SeekToFirst s)
  | last (it : Iter) : Reach cmp s it → Reach cmp s (SeekToLast s)
  | next (it : Iter) : Reach cmp s it → Valid it = true →
      Reach cmp s (Next s it)
  | prev (it : Iter) : Reach cmp s it → Valid it = true →
      Reach cmp s (Prev cmp s it)

end SkipL

namespace IsCmp

variable {K : Type} {cmp : K → K → Int}

theorem eq_refl (h : IsCmp cmp) (a : K) : cmp a a = 0 := by
  have := h.asym a a
  omega

theorem eq_symm (h : IsCmp cmp) {a b : K} (hab : cmp a b = 0) : cmp b a = 0 := by
  have h1 := h.asym a b
  have h2 := h.asym b a
  omega

theorem congr_right_lt (h : IsCmp cmp) {a b : K} (c : K) (hab : cmp a b = 0) :
    cmp c a < 0 ↔ cmp c b < 0 := by
  have h1 := h.asym c a
  have h2 := h.asym c b
  have h3 := h.congr_left_lt a b c hab
  have h4 := h.congr_left_eq a b c hab
  omega

theorem congr_right_eq (h : IsCmp cmp) {a b : K} (c : K) (hab : cmp a b = 0) :
    cmp c a = 0 ↔ cmp c b = 0 := by
  constructor
  · intro hca
    exact h.eq_symm ((h.congr_left_eq a b c hab).mp (h.eq_symm hca))
  · intro hcb
    exact h.eq_symm ((h.congr_left_eq a b c hab).mpr (h.eq_symm hcb))

theorem pos_of_not_neg_of_ne (h : IsCmp cmp) {a b : K}
    (h1 : ¬ cmp a b < 0) (h2 : cmp a b ≠ 0) : cmp b a < 0 := by
  have h3 := h.asym b a
  omega

end IsCmp

theorem natCmp_isCmp : IsCmp natCmp := by
  constructor
  · intro a b
    simp only [natCmp]
    split_ifs <;> constructor <;> intro h <;> first | omega | exact h.elim
  · intro a b c h1 h2
    simp only [natCmp] at *
    split_ifs at * <;> omega
  · intro a b c h
    simp only [natCmp] at *
    split_ifs at * <;> constructor <;> intro hx <;> first | omega | exact hx.elim
  · intro a b c h
    simp only [natCmp] at *
    split_ifs at * <;> constructor <;> intro hx <;> first | omega | exact hx.elim

theorem natCmp_eq_zero {a b : Nat} : natCmp a b = 0 ↔ a = b := by
  simp only [natCmp]
  split_ifs <;> constructor <;> intro h <;> first | omega | exact h.elim

/-! ### Bit-level helper lemmas for the codec proofs -/

theorem byte_and_127 (w : Nat) : (w ||| 128) % 256 &&& 127 = w &&& 127 := by
  have h127 : (127 : Nat) = 2 ^ 7 - 1 := by norm_num
  have h128 : (128 : Nat) = 2 ^ 7 := by norm_num
  have h256 : (256 : Nat) = 2 ^ 8 := by norm_num
  rw [h127, h128, h256]
  apply Nat.eq_of_testBit_eq
  intro i
  simp only [Nat.testBit_and, Nat.testBit_mod_two_pow, Nat.testBit_or,
    Nat.testBit_two_pow, Nat.testBit_two_pow_sub_one]
  by_cases h : i < 7
  · have h8 : i < 8 := by omega
    have h7 : ¬ (7 = i) := by omega
    simp [h, h8, h7]
  · simp [h]

theorem byte_and_128 (w : Nat) : (w ||| 128) % 256 &&& 128 = 128 := by
  have h128 : (128 : Nat) = 2 ^ 7 := by norm_num
  have h256 : (256 : Nat) = 2 ^ 8 := by norm_num
  rw [h128, h256]
  apply Nat.eq_of_testBit_eq
  intro i
  simp only [Nat.testBit_and, Nat.testBit_mod_two_pow, Nat.testBit_or,
    Nat.testBit_two_pow]
  by_cases h : 7 = i
  · subst h; simp
  · simp [h]

theorem and_128_eq_zero {w : Nat} (h : w < 128) : w &&& 128 = 0 := by
  have h128 : (128 : Nat) = 2 ^ 7 := by norm_num
  rw [h128]
  apply Nat.eq_of_testBit_eq
  intro i
  simp only [Nat.testBit_and, Nat.testBit_two_pow, Nat.zero_testBit]
  by_cases hi : 7 = i
  · subst hi
    have : w.testBit 7 = false := Nat.testBit_lt_two_pow (by norm_num at h128 ⊢; omega)
    simp [this]
  · simp [hi]

/-- One continuation step of the varint32 decode accumulates the next seven
bits of v. -/
theorem acc_step (v m : Nat) (hm : m + 7 ≤ 32) :
    v &&& (2 ^ m - 1) ||| ((v >>> m) &&& 127) <<< m % 2 ^ 32 =
      v &&& (2 ^ (m + 7) - 1) := by
  have h127 : (127 : Nat) = 2 ^ 7 - 1 := by norm_num
  rw [h127]
  apply Nat.eq_of_testBit_eq
  intro i
  simp only [Nat.testBit_or, Nat.testBit_and, Nat.testBit_mod_two_pow,
    Nat.testBit_shiftLeft, Nat.testBit_shiftRight, Nat.testBit_two_pow_sub_one]
  by_cases h1 : i < m
  · have h2 : ¬ (m ≤ i) := by omega
    have h3 : i < m + 7 := by omega
    simp [h1, h2, h3]
  · by_cases h2 : i < m + 7
    · have h3 : m ≤ i := by omega
      have h4 : i < 32 := by omega
      have h5 : i - m < 7 := by omega
      have h6 : m + (i - m) = i := by omega
      simp [h1, h2, h3, h4, h5, h6]
    · have h5 : ¬ (i - m < 7) := by omega
      simp [h1, h2, h5]

/-- The terminator step of the varint32 decode restores v in full. -/
theorem acc_final (v m : Nat) (hv : v < 2 ^ 32) :
    v &&& (2 ^ m - 1) ||| (v >>> m) <<< m % 2 ^ 32 = v := by
  apply Nat.eq_of_testBit_eq
  intro i
  simp only [Nat.testBit_or, Nat.testBit_and, Nat.testBit_mod_two_pow,
    Nat.testBit_shiftLeft, Nat.testBit_shiftRight, Nat.testBit_two_pow_sub_one]
  by_cases h1 : i < m
  · have h2 : ¬ (m ≤ i) := by omega
    simp [h1, h2]
  · by_cases h4 : i < 32
    · have h3 : m ≤ i := by omega
      have h6 : m + (i - m) = i := by omega
      simp [h1, h3, h4, h6]
    · have h7 : v.testBit i = false := by
        apply Nat.testBit_lt_two_pow
        calc v < 2 ^ 32 := hv
          _ ≤ 2 ^ i := Nat.pow_le_pow_right (by norm_num) (by omega)
      simp [h1, h4, h7]

/-! ### Unfolding lemmas for the encoder and decoders -/

theorem EncodeVarint64_lt {v : Nat} (h : v < 128) :
    EncodeVarint64 v = [v % 256] := by
  rw [EncodeVarint64]
  rw [dif_neg (by omega)]

theorem EncodeVarint64_ge {v : Nat} (h : 128 ≤ v) :
    EncodeVarint64 v = (v ||| 128) % 256 :: EncodeVarint64 (v >>> 7) := by
  rw [EncodeVarint64]
  rw [dif_pos h]

theorem get32_cont {b : Nat} {rest : List Nat} {shift result consumed : Nat}
    (hs : shift ≤ 28) (hb : b &&& 128 ≠ 0) :
    GetVarint32PtrFallback (b :: rest) shift result consumed =
      GetVarint32PtrFallback rest (shift + 7)
        (result ||| ((b &&& 127) <<< shift % 2 ^ 32)) (consumed + 1) := by
  simp only [GetVarint32PtrFallback]
  rw [if_neg (by omega), if_pos hb]

theorem get32_done {b : Nat} {rest : List Nat} {shift result consumed : Nat}
    (hs : shift ≤ 28) (hb : b &&& 128 = 0) :
    GetVarint32PtrFallback (b :: rest) shift result consumed =
      some (result ||| (b <<< shift % 2 ^ 32), consumed + 1) := by
  simp only [GetVarint32PtrFallback]
  rw [if_neg (by omega), if_neg (by simp [hb])]

theorem get64_cont {b : Nat} {rest : List Nat} {shift result consumed : Nat}
    (hs : shift ≤ 63) (hb : b &&& 128 ≠ 0) :
    GetVarint64Ptr (b :: rest) shift result consumed =
      GetVarint64Ptr rest (shift + 7)
        (result ||| ((b &&& 127) <<< shift % 2 ^ 64)) (consumed + 1) := by
  simp only [GetVarint64Ptr]
  rw [if_neg (by omega), if_pos hb]

/-- Literal-constant form of acc_step, stated so that it rewrites the
decoder's accumulators as they appear syntactically. -/
theorem acc_step_lit (v m a b : Nat) (hm : m + 7 ≤ 32) (ha : a = 2 ^ m - 1)
    (hb : b = 2 ^ (m + 7) - 1) :
    v &&& a ||| ((v >>> m) &&& 127) <<< m % 2 ^ 32 = v &&& b := by
  subst ha hb
  exact acc_step v m hm

/-- Literal-constant form of acc_final. -/
theorem acc_final_lit (v m a : Nat) (hv : v < 2 ^ 32) (ha : a = 2 ^ m - 1) :
    v &&& a ||| (v >>> m) <<< m % 2 ^ 32 = v := by
  subst ha
  exact acc_final v m hv

/-- The first continuation byte initializes the accumulator with the low
seven bits. -/
theorem acc_start (v : Nat) : 0 ||| (v &&& 127) <<< 0 % 2 ^ 32 = v &&& 127 := by
  rw [Nat.shiftLeft_zero, Nat.zero_or,
    Nat.mod_eq_of_lt (lt_of_le_of_lt Nat.and_le_right (by norm_num))]

/-! ### C10: the unrolled 32-bit encoder agrees with the 64-bit loop encoder -/

/-- C10: for every v in [0, 2^32), EncodeVarint32 (the unrolled five-case
encoder) writes exactly the same byte sequence, of the same length, as
EncodeVarint64 (the loop encoder) applied to the same value. -/
theorem c10_encodeVarint32_eq_encodeVarint64 (v : Nat) (hv : v < 2 ^ 32) :
    EncodeVarint32 v = EncodeVarint64 v := by
  by_cases h1 : v < 2 ^ 7
  · rw [EncodeVarint32, if_pos h1, EncodeVarint64_lt (by norm_num at h1; omega)]
  · have hge : 128 ≤ v := by norm_num at h1; omega
    by_cases h2 : v < 2 ^ 14
    · rw [EncodeVarint32, if_neg h1, if_pos h2, EncodeVarint64_ge hge,
        EncodeVarint64_lt (by rw [Nat.shiftRight_eq_div_pow]; norm_num at h2 ⊢; omega)]
    · have hge7 : 128 ≤ v >>> 7 := by
        rw [Nat.shiftRight_eq_div_pow]; norm_num at h2 ⊢; omega
      have hsh14 : v >>> 7 >>> 7 = v >>> 14 := by
        rw [← Nat.shiftRight_add]
      by_cases h3 : v < 2 ^ 21
      · rw [EncodeVarint32, if_neg h1, if_neg h2, if_pos h3, EncodeVarint64_ge hge,
          EncodeVarint64_ge hge7, hsh14,
          EncodeVarint64_lt (by rw [Nat.shiftRight_eq_div_pow]; norm_num at h3 ⊢; omega)]
      · have hge14 : 128 ≤ v >>> 14 := by
          rw [Nat.shiftRight_eq_div_pow]; norm_num at h3 ⊢; omega
        have hsh21 : v >>> 14 >>> 7 = v >>> 21 := by
          rw [← Nat.shiftRight_add]
        by_cases h4 : v < 2 ^ 28
        · rw [EncodeVarint32, if_neg h1, if_neg h2, if_neg h3, if_pos h4,
            EncodeVarint64_ge hge, EncodeVarint64_ge hge7, hsh14,
            EncodeVarint64_ge hge14, hsh21,
            EncodeVarint64_lt (by rw [Nat.shiftRight_eq_div_pow]; norm_num at h4 ⊢; omega)]
        · have hge21 : 128 ≤ v >>> 21 := by
            rw [Nat.shiftRight_eq_div_pow]; norm_num at h4 ⊢; omega
          have hsh28 : v >>> 21 >>> 7 = v >>> 28 := by
            rw [← Nat.shiftRight_add]
          rw [EncodeVarint32, if_neg h1, if_neg h2, if_neg h3, if_neg h4,
            EncodeVarint64_ge hge, EncodeVarint64_ge hge7, hsh14,
            EncodeVarint64_ge hge14, hsh21, EncodeVarint64_ge hge21, hsh28,
            EncodeVarint64_lt (by rw [Nat.shiftRight_eq_div_pow]; norm_num at hv ⊢; omega)]

/-- Witness for C10 at v = 300. -/
theorem c10_witness : EncodeVarint32 300 = EncodeVarint64 300 :=
  c10_encodeVarint32_eq_encodeVarint64 300 (by norm_num)

/-! ### C4: decode of an encode succeeds with the same value and length -/

/-- C4: for every v in [0, 2^32), decoding the bytes produced by
EncodeVarint32 v (with the limit at or past the encoding's end, i.e. with
arbitrary extra bytes after it) succeeds, yields v, and consumes exactly
the number of bytes the encoder wrote. -/
theorem c4_varint32_roundtrip (v : Nat) (extra : List Nat) (hv : v < 2 ^ 32) :
    GetVarint32PtrFallback (EncodeVarint32 v ++ extra) 0 0 0 =
      some (v, (EncodeVarint32 v).length) := by
  by_cases h1 : v < 2 ^ 7
  · rw [EncodeVarint32, if_pos h1]
    have hvm : v % 256 = v := Nat.mod_eq_of_lt (by norm_num at h1; omega)
    simp only [List.cons_append, List.nil_append, List.length_cons,
      List.length_nil, hvm]
    rw [get32_done (by omega) (and_128_eq_zero (by norm_num at h1; omega))]
    rw [Nat.shiftLeft_zero, Nat.zero_or, Nat.mod_eq_of_lt hv]
  · by_cases h2 : v < 2 ^ 14
    · rw [EncodeVarint32, if_neg h1, if_pos h2]
      have hb7 : v >>> 7 < 128 := by
        rw [Nat.shiftRight_eq_div_pow]; norm_num at h2 ⊢; omega
      have hm7 : (v >>> 7) % 256 = v >>> 7 := Nat.mod_eq_of_lt (by omega)
      simp only [List.cons_append, List.nil_append, List.length_cons,
        List.length_nil, hm7]
      rw [get32_cont (by omega) (by rw [byte_and_128]; norm_num), byte_and_127,
        acc_start, get32_done (by omega) (and_128_eq_zero hb7),
        acc_final_lit v 7 127 hv (by norm_num)]
    · by_cases h3 : v < 2 ^ 21
      · rw [EncodeVarint32, if_neg h1, if_neg h2, if_pos h3]
        have hb14 : v >>> 14 < 128 := by
          rw [Nat.shiftRight_eq_div_pow]; norm_num at h3 ⊢; omega
        have hm14 : (v >>> 14) % 256 = v >>> 14 := Nat.mod_eq_of_lt (by omega)
        simp only [List.cons_append, List.nil_append, List.length_cons,
          List.length_nil, hm14]
        rw [get32_cont (by omega) (by rw [byte_and_128]; norm_num), byte_and_127,
          acc_start,
          get32_cont (by omega) (by rw [byte_and_128]; norm_num), byte_and_127,
          acc_step_lit v 7 127 16383 (by norm_num) (by norm_num) (by norm_num),
          get32_done (by omega) (and_128_eq_zero hb14),
          acc_final_lit v 14 16383 hv (by norm_num)]
      · by_cases h4 : v < 2 ^ 28
        · rw [EncodeVarint32, if_neg h1, if_neg h2, if_neg h3, if_pos h4]
          have hb21 : v >>> 21 < 128 := by
            rw [Nat.shiftRight_eq_div_pow]; norm_num at h4 ⊢; omega
          have hm21 : (v >>> 21) % 256 = v >>> 21 := Nat.mod_eq_of_lt (by omega)
          simp only [List.cons_append, List.nil_append, List.length_cons,
            List.length_nil, hm21]
          rw [get32_cont (by omega) (by rw [byte_and_128]; norm_num), byte_and_127,
            acc_start,
            get32_cont (by omega) (by rw [byte_and_128]; norm_num), byte_and_127,
            acc_step_lit v 7 127 16383 (by norm_num) (by norm_num) (by norm_num),
            get32_cont (by omega) (by rw [byte_and_128]; norm_num), byte_and_127,
            acc_step_lit v 14 16383 2097151 (by norm_num) (by norm_num) (by norm_num),
            get32_done (by omega) (and_128_eq_zero hb21),
            acc_final_lit v 21 2097151 hv (by norm_num)]
        · rw [EncodeVarint32, if_neg h1, if_neg h2, if_neg h3, if_neg h4]
          have hb28 : v >>> 28 < 128 := by
            rw [Nat.shiftRight_eq_div_pow]; norm_num at hv ⊢; omega
          have hm28 : (v >>> 28) % 256 = v >>> 28 := Nat.mod_eq_of_lt (by omega)
          simp only [List.cons_append, List.nil_append, List.length_cons,
            List.length_nil, hm28]
          rw [get32_cont (by omega) (by rw [byte_and_128]; norm_num), byte_and_127,
            acc_start,
            get32_cont (by omega) (by rw [byte_and_128]; norm_num), byte_and_127,
            acc_step_lit v 7 127 16383 (by norm_num) (by norm_num) (by norm_num),
            get32_cont (by omega) (by rw [byte_and_128]; norm_num), byte_and_127,
            acc_step_lit v 14 16383 2097151 (by norm_num) (by norm_num) (by norm_num),
            get32_cont (by omega) (by rw [byte_and_128]; norm_num), byte_and_127,
            acc_step_lit v 21 2097151 268435455 (by norm_num) (by norm_num) (by norm_num),
            get32_done (by omega) (and_128_eq_zero hb28),
            acc_final_lit v 28 268435455 hv (by norm_num)]

/-- Witness for C4: decoding the encoding of 300 (with one extra byte after
the limit position of interest) succeeds with value 300 and consumes the 2
bytes the encoder wrote. -/
theorem c4_witness :
    GetVarint32PtrFallback (EncodeVarint32 300 ++ [7]) 0 0 0 =
      some (300, (EncodeVarint32 300).length) :=
  c4_varint32_roundtrip 300 [7] (by norm_num)

/-! ### C5: decoder failure cases -/

theorem get32_overflow {bs : List Nat} {shift result consumed : Nat}
    (h : 28 < shift) : GetVarint32PtrFallback bs shift result consumed = none := by
  cases bs with
  | nil => rfl
  | cons b rest =>
    simp only [GetVarint32PtrFallback]
    rw [if_pos h]

theorem get64_overflow {bs : List Nat} {shift result consumed : Nat}
    (h : 63 < shift) : GetVarint64Ptr bs shift result consumed = none := by
  cases bs with
  | nil => rfl
  | cons b rest =>
    simp only [GetVarint64Ptr]
    rw [if_pos h]

theorem get32_allcont (bs : List Nat) (hb : ∀ b ∈ bs, b &&& 128 ≠ 0) :
    ∀ shift result consumed,
      GetVarint32PtrFallback bs shift result consumed = none := by
  induction bs with
  | nil => intro shift result consumed; rfl
  | cons b rest ih =>
    intro shift result consumed
    by_cases hs : 28 < shift
    · exact get32_overflow hs
    · rw [get32_cont (by omega) (hb b (List.mem_cons_self b rest))]
      exact ih (fun x hx => hb x (List.mem_cons_of_mem b hx)) _ _ _

theorem get64_allcont (bs : List Nat) (hb : ∀ b ∈ bs, b &&& 128 ≠ 0) :
    ∀ shift result consumed,
      GetVarint64Ptr bs shift result consumed = none := by
  induction bs with
  | nil => intro shift result consumed; rfl
  | cons b rest ih =>
    intro shift result consumed
    by_cases hs : 63 < shift
    · exact get64_overflow hs
    · rw [get64_cont (by omega) (hb b (List.mem_cons_self b rest))]
      exact ih (fun x hx => hb x (List.mem_cons_of_mem b hx)) _ _ _

/-- C5: GetVarint32PtrFallback fails on every input whose first five bytes
before the limit all carry the continuation bit; GetVarint64Ptr fails
likewise when the first ten bytes do; and both fail whenever the limit is
reached before a terminator byte (an all-continuation readable range).
Failure is the none result, which carries no value, mirroring the C
functions returning nullptr without writing *value. -/
theorem c5_varint_decode_rejects :
    (∀ (b0 b1 b2 b3 b4 : Nat) (rest : List Nat),
        b0 &&& 128 ≠ 0 → b1 &&& 128 ≠ 0 → b2 &&& 128 ≠ 0 → b3 &&& 128 ≠ 0 →
        b4 &&& 128 ≠ 0 →
        GetVarint32PtrFallback (b0 :: b1 :: b2 :: b3 :: b4 :: rest) 0 0 0 =
          none) ∧
    (∀ (b0 b1 b2 b3 b4 b5 b6 b7 b8 b9 : Nat) (rest : List Nat),
        b0 &&& 128 ≠ 0 → b1 &&& 128 ≠ 0 → b2 &&& 128 ≠ 0 → b3 &&& 128 ≠ 0 →
        b4 &&& 128 ≠ 0 → b5 &&& 128 ≠ 0 → b6 &&& 128 ≠ 0 → b7 &&& 128 ≠ 0 →
        b8 &&& 128 ≠ 0 → b9 &&& 128 ≠ 0 →
        GetVarint64Ptr
          (b0 :: b1 :: b2 :: b3 :: b4 :: b5 :: b6 :: b7 :: b8 :: b9 :: rest)
          0 0 0 = none) ∧
    (∀ bs : List Nat, (∀ b ∈ bs, b &&& 128 ≠ 0) →
        GetVarint32PtrFallback bs 0 0 0 = none) ∧
    (∀ bs : List Nat, (∀ b ∈ bs, b &&& 128 ≠ 0) →
        GetVarint64Ptr bs 0 0 0 = none) := by
  refine ⟨?_, ?_, ?_, ?_⟩
  · intro b0 b1 b2 b3 b4 rest h0 h1 h2 h3 h4
    rw [get32_cont (by omega) h0, get32_cont (by omega) h1,
      get32_cont (by omega) h2, get32_cont (by omega) h3,
      get32_cont (by omega) h4]
    exact get32_overflow (by omega)
  · intro b0 b1 b2 b3 b4 b5 b6 b7 b8 b9 rest h0 h1 h2 h3 h4 h5 h6 h7 h8 h9
    rw [get64_cont (by omega) h0, get64_cont (by omega) h1,
      get64_cont (by omega) h2, get64_cont (by omega) h3,
      get64_cont (by omega) h4, get64_cont (by omega) h5,
      get64_cont (by omega) h6, get64_cont (by omega) h7,
      get64_cont (by omega) h8, get64_cont (by omega) h9]
    exact get64_overflow (by omega)
  · exact fun bs hb => get32_allcont bs hb 0 0 0
  · exact fun bs hb => get64_allcont bs hb 0 0 0

/-- Witness for C5 at concrete all-continuation inputs. -/
theorem c5_witness :
    GetVarint32PtrFallback [128, 129, 130, 131, 132] 0 0 0 = none ∧
    GetVarint64Ptr [255, 255, 255, 255, 255, 255, 255, 255, 255, 255] 0 0 0 =
      none ∧
    GetVarint32PtrFallback [128, 200] 0 0 0 = none ∧
    GetVarint64Ptr [128] 0 0 0 = none := by
  refine ⟨?_, ?_, ?_, ?_⟩
  · exact c5_varint_decode_rejects.1 128 129 130 131 132 [] (by decide)
      (by decide) (by decide) (by decide) (by decide)
  · exact c5_varint_decode_rejects.2.1 255 255 255 255 255 255 255 255 255 255
      [] (by decide) (by decide) (by decide) (by decide) (by decide) (by decide)
      (by decide) (by decide) (by decide) (by decide)
  · exact c5_varint_decode_rejects.2.2.1 [128, 200] (by decide)
  · exact c5_varint_decode_rejects.2.2.2 [128] (by decide)

/-! ### C9: GetVarint32 / GetVarint64 on a Slice leave everything untouched
on failure -/

/-- C9: when GetVarint32 (or GetVarint64) on a Slice returns false, both
the input Slice (data pointer and length) and the out-value location are
left unmodified. -/
theorem c9_getVarint_failure_frame :
    (∀ (mem : List Nat) (input : CSlice) (v0 : Nat),
        (GetVarint32 mem input v0).1 = false →
        (GetVarint32 mem input v0).2 = (input, v0)) ∧
    (∀ (mem : List Nat) (input : CSlice) (v0 : Nat),
        (GetVarint64 mem input v0).1 = false →
        (GetVarint64 mem input v0).2 = (input, v0)) := by
  constructor
  · intro mem input v0 h
    cases hm : GetVarint32PtrFallback (sliceBytes mem input) 0 0 0 with
    | none => simp [GetVarint32, hm]
    | some p => simp [GetVarint32, hm] at h
  · intro mem input v0 h
    cases hm : GetVarint64Ptr (sliceBytes mem input) 0 0 0 with
    | none => simp [GetVarint64, hm]
    | some p => simp [GetVarint64, hm] at h

/-- Witness for C9: a one-byte slice holding a lone continuation byte makes
both decoders fail, and the slice and out-value survive unchanged. -/
theorem c9_witness :
    (GetVarint32 [128] ⟨0, 1⟩ 37).2 = (⟨0, 1⟩, 37) ∧
    (GetVarint64 [128] ⟨0, 1⟩ 37).2 = (⟨0, 1⟩, 37) :=
  ⟨c9_getVarint_failure_frame.1 [128] ⟨0, 1⟩ 37 (by decide),
    c9_getVarint_failure_frame.2 [128] ⟨0, 1⟩ 37 (by decide)⟩

/-! ### C3: GetLengthPrefixedSlice failure frame

The claim as stated is false on the code: when the leading varint decodes
but fewer than the decoded length bytes remain, GetVarint32 has already
advanced *input past the varint and GetLengthPrefixedSlice returns false
without restoring it.  The counterexample is the one-byte input 0x01: the
varint length 1 decodes, zero bytes remain, and the input ends up advanced
by one byte with length zero. -/

/-- C3 counterexample: on memory [1] with input slice (pos 0, len 1),
GetLengthPrefixedSlice fails yet the input slice is not as it was before
the call. -/
theorem c3_counterexample :
    (GetLengthPrefixedSlice [1] ⟨0, 1⟩ ⟨0, 0⟩).1 = false ∧
    (GetLengthPrefixedSlice [1] ⟨0, 1⟩ ⟨0, 0⟩).2.1 ≠ (⟨0, 1⟩ : CSlice) := by
  decide

/-- C3 amended: when GetLengthPrefixedSlice fails, *result is untouched
and: either the leading varint itself failed to decode and the input is
exactly as before, or the varint decoded to a length l consuming c bytes,
fewer than l bytes remained, and the input is exactly the original advanced
past the varint (pointer moved by c, length shrunk by c). -/
theorem c3_amended_failure_frame (mem : List Nat) (input result : CSlice)
    (h : (GetLengthPrefixedSlice mem input result).1 = false) :
    (GetLengthPrefixedSlice mem input result).2.2 = result ∧
    ((GetVarint32PtrFallback (sliceBytes mem input) 0 0 0 = none ∧
        (GetLengthPrefixedSlice mem input result).2.1 = input) ∨
      (∃ l c, GetVarint32PtrFallback (sliceBytes mem input) 0 0 0 = some (l, c) ∧
        input.len - c < l ∧
        (GetLengthPrefixedSlice mem input result).2.1 =
          ⟨input.pos + c, input.len - c⟩)) := by
  cases hm : GetVarint32PtrFallback (sliceBytes mem input) 0 0 0 with
  | none =>
    refine ⟨?_, Or.inl ⟨rfl, ?_⟩⟩ <;>
      simp [GetLengthPrefixedSlice, GetVarint32, hm]
  | some p =>
    obtain ⟨l, c⟩ := p
    by_cases hl : l ≤ input.len - c
    · exfalso
      simp [GetLengthPrefixedSlice, GetVarint32, hm, hl] at h
    · refine ⟨?_, Or.inr ⟨l, c, rfl, by omega, ?_⟩⟩ <;>
        simp [GetLengthPrefixedSlice, GetVarint32, hm, hl]

/-- Witness for C3's amended statement on the concrete failing input. -/
theorem c3_witness :
    (GetLengthPrefixedSlice [1] ⟨0, 1⟩ ⟨5, 5⟩).2.2 = (⟨5, 5⟩ : CSlice) ∧
    ((GetVarint32PtrFallback (sliceBytes [1] ⟨0, 1⟩) 0 0 0 = none ∧
        (GetLengthPrefixedSlice [1] ⟨0, 1⟩ ⟨5, 5⟩).2.1 = (⟨0, 1⟩ : CSlice)) ∨
      (∃ l c,
        GetVarint32PtrFallback (sliceBytes [1] ⟨0, 1⟩) 0 0 0 = some (l, c) ∧
        (1 : Nat) - c < l ∧
        (GetLengthPrefixedSlice [1] ⟨0, 1⟩ ⟨5, 5⟩).2.1 =
          (⟨0 + c, 1 - c⟩ : CSlice))) :=
  c3_amended_failure_frame [1] ⟨0, 1⟩ ⟨5, 5⟩ (by decide)

theorem sliceCompare_nil_left (ys : List Nat) :
    sliceCompare [] ys = if 0 < ys.length then -1 else 0 := by
  cases ys with
  | nil => decide
  | cons b bs =>
    simp [sliceCompare, memcmpBytes]

theorem sliceCompare_nil_right (xs : List Nat) :
    sliceCompare xs [] = if 0 < xs.length then 1 else 0 := by
  cases xs with
  | nil => decide
  | cons a as =>
    simp [sliceCompare, memcmpBytes]

theorem sliceCompare_cons (a b : Nat) (as bs : List Nat) :
    sliceCompare (a :: as) (b :: bs) =
      if a < b then -1 else if b < a then 1 else sliceCompare as bs := by
  simp only [sliceCompare, List.length_cons]
  have hmin : min (as.length + 1) (bs.length + 1) = min as.length bs.length + 1 := by
    omega
  rw [hmin]
  simp only [List.take_succ_cons, memcmpBytes]
  by_cases h1 : a < b
  · simp [h1]
  · by_cases h2 : b < a
    · simp [h1, h2]
    · simp only [if_neg h1, if_neg h2]
      have hl : (as.length + 1 < bs.length + 1) ↔ (as.length < bs.length) := by
        omega
      have hr : (bs.length + 1 < as.length + 1) ↔ (bs.length < as.length) := by
        omega
      simp only [sliceCompare, hl, hr]

/-- Inversion of lexicographic order on cons cells, for Nat byte lists. -/
theorem lex_cons_cons {a b : Nat} {as bs : List Nat} :
    List.Lex (· < ·) (a :: as) (b :: bs) ↔
      a < b ∨ (a = b ∧ List.Lex (· < ·) as bs) := by
  constructor
  · intro h
    cases h with
    | cons h => exact Or.inr ⟨rfl, h⟩
    | rel h => exact Or.inl h
  · rintro (h | ⟨rfl, h⟩)
    · exact List.Lex.rel h
    · exact List.Lex.cons h

/-- C8: sliceCompare is negative iff the first byte list lexicographically
precedes the second (ties on the common prefix broken by the shorter side
being less), zero iff the two lists are identical (equal length and equal
bytes), and positive iff the second precedes the first. -/
theorem c8_slice_compare_trichotomy (x y : List Nat) :
    (sliceCompare x y < 0 ↔ List.Lex (· < ·) x y) ∧
    (sliceCompare x y = 0 ↔ x = y) ∧
    (0 < sliceCompare x y ↔ List.Lex (· < ·) y x) := by
  induction x generalizing y with
  | nil =>
    cases y with
    | nil =>
      refine ⟨?_, ?_, ?_⟩ <;> simp [sliceCompare_nil_left]
    | cons b bs =>
      refine ⟨?_, ?_, ?_⟩ <;> simp [sliceCompare_nil_left]
      exact List.Lex.nil
  | cons a as ih =>
    cases y with
    | nil =>
      refine ⟨?_, ?_, ?_⟩ <;> simp [sliceCompare_nil_right]
      exact List.Lex.nil
    | cons b bs =>
      rw [sliceCompare_cons]
      rcases Nat.lt_trichotomy a b with h | h | h
      · have hne : a ≠ b := Nat.ne_of_lt h
        have hnb : ¬ b < a := by omega
        rw [if_pos h]
        refine ⟨⟨fun _ => List.Lex.rel h, fun _ => by norm_num⟩,
          ⟨fun hc => absurd hc (by norm_num), fun hc => ?_⟩,
          ⟨fun hc => absurd hc (by norm_num), fun hl => ?_⟩⟩
        · injection hc with h1 h2
          exact absurd h1 hne
        · rw [lex_cons_cons] at hl
          rcases hl with hlt | ⟨heq, _⟩
          · omega
          · omega
      · subst h
        rw [if_neg (Nat.lt_irrefl a), if_neg (Nat.lt_irrefl a)]
        obtain ⟨ih1, ih2, ih3⟩ := ih bs
        refine ⟨?_, ?_, ?_⟩
        · rw [List.Lex.cons_iff]
          exact ih1
        · rw [ih2]
          simp
        · rw [List.Lex.cons_iff]
          exact ih3
      · have hne : a ≠ b := (Nat.ne_of_lt h).symm
        have hna : ¬ a < b := by omega
        rw [if_neg hna, if_pos h]
        refine ⟨⟨fun hc => absurd hc (by norm_num), fun hl => ?_⟩,
          ⟨fun hc => absurd hc (by norm_num), fun hc => ?_⟩,
          ⟨fun _ => List.Lex.rel h, fun _ => by norm_num⟩⟩
        · rw [lex_cons_cons] at hl
          rcases hl with hlt | ⟨heq, _⟩
          · omega
          · omega
        · injection hc with h1 h2
          exact absurd h1 hne

/-! ### C6: Arena large allocations

The claim quantifies over every call state, but Arena::Allocate takes the
bump-pointer fast path whenever bytes <= alloc_bytes_remaining_, even for
bytes > kBlockSize/4: after Allocate(1) on a fresh arena 4095 bytes remain,
so Allocate(2000) moves the bump pointer and appends no slab. -/

/-- C6 counterexample: with 4095 bytes remaining, Allocate(2000) appends no
dedicated slab and disturbs the bump pointer and the remaining-byte
count. -/
theorem c6_counterexample :
    ¬ ((Arena.Allocate (Arena.Allocate Arena.arenaNew 1).2 2000).2.blocks =
          (Arena.Allocate Arena.arenaNew 1).2.blocks ++
            [((Arena.Allocate (Arena.Allocate Arena.arenaNew 1).2 2000).1,
              2000)] ∧
        (Arena.Allocate (Arena.Allocate Arena.arenaNew 1).2 2000).2.allocPtr =
          (Arena.Allocate Arena.arenaNew 1).2.allocPtr ∧
        (Arena.Allocate
              (Arena.Allocate Arena.arenaNew 1).2 2000).2.allocBytesRemaining =
          (Arena.Allocate Arena.arenaNew 1).2.allocBytesRemaining) := by
  decide

/-- C6 amended: for n > kBlockSize/4 = 1024, whenever the call actually
misses the bump-pointer fast path (n exceeds alloc_bytes_remaining_),
Allocate appends exactly one dedicated slab of exactly n bytes, returns
its base, and leaves alloc_ptr_ and alloc_bytes_remaining_ unchanged. -/
theorem c6_amended_large_alloc (a : Arena.State) (n : Nat)
    (hlarge : Arena.kBlockSize / 4 < n) (hrem : a.allocBytesRemaining < n) :
    (Arena.Allocate a n).2.blocks = a.blocks ++ [((Arena.Allocate a n).1, n)] ∧
    (Arena.Allocate a n).1 = a.nextFresh ∧
    (Arena.Allocate a n).2.allocPtr = a.allocPtr ∧
    (Arena.Allocate a n).2.allocBytesRemaining = a.allocBytesRemaining ∧
    (Arena.Allocate a n).2.memoryUsage =
      a.memoryUsage + n + Arena.ptrSize := by
  unfold Arena.Allocate Arena.AllocateFallback Arena.AllocateNewBlock
  rw [if_neg (by omega), if_pos hlarge]
  exact ⟨rfl, rfl, rfl, rfl, rfl⟩

/-- Witness for C6's amended statement: a fresh arena and n = 2000. -/
theorem c6_witness :
    (Arena.Allocate Arena.arenaNew 2000).2.blocks =
      Arena.arenaNew.blocks ++ [((Arena.Allocate Arena.arenaNew 2000).1, 2000)] ∧
    (Arena.Allocate Arena.arenaNew 2000).1 = Arena.arenaNew.nextFresh ∧
    (Arena.Allocate Arena.arenaNew 2000).2.allocPtr =
      Arena.arenaNew.allocPtr ∧
    (Arena.Allocate Arena.arenaNew 2000).2.allocBytesRemaining =
      Arena.arenaNew.allocBytesRemaining ∧
    (Arena.Allocate Arena.arenaNew 2000).2.memoryUsage =
      Arena.arenaNew.memoryUsage + 2000 + Arena.ptrSize :=
  c6_amended_large_alloc Arena.arenaNew 2000 (by decide) (by decide)

namespace SkipL

variable {K : Type}

/-! ### Basic chain lemmas -/

theorem fchain_none_eq {b : Nat} {f : Nat → Option Nat} {c : List Nat}
    (h : FChain b f none c) : c = [] := by
  cases h; rfl

theorem fchain_some_inv {b : Nat} {f : Nat → Option Nat} {i : Nat}
    {c : List Nat} (h : FChain b f (some i) c) :
    ∃ cs, c = i :: cs ∧ i < b ∧ FChain b f (f i) cs := by
  cases h with
  | cons _ cs hi hc => exact ⟨cs, rfl, hi, hc⟩

theorem fchain_det {b : Nat} {f : Nat → Option Nat} {p : Option Nat}
    {c1 c2 : List Nat} (h1 : FChain b f p c1) (h2 : FChain b f p c2) :
    c1 = c2 := by
  induction h1 generalizing c2 with
  | nil => cases h2; rfl
  | cons i c hi hc ih =>
    cases h2 with
    | cons _ c2 hi2 hc2 => rw [ih hc2]

theorem fchain_mem_lt {b : Nat} {f : Nat → Option Nat} {p : Option Nat}
    {c : List Nat} (h : FChain b f p c) : ∀ j ∈ c, j < b := by
  induction h with
  | nil => intro j hj; cases hj
  | cons i c hi hc ih =>
    intro j hj
    rcases List.mem_cons.mp hj with rfl | hj2
    · exact hi
    · exact ih j hj2

theorem fchain_suffix {b : Nat} {f : Nat → Option Nat} {p : Option Nat}
    {c : List Nat} (h : FChain b f p c) {j : Nat} (hj : j ∈ c) :
    ∃ pre cs, c = pre ++ j :: cs ∧ FChain b f (some j) (j :: cs) := by
  induction h with
  | nil => cases hj
  | cons i c hi hc ih =>
    rcases List.mem_cons.mp hj with rfl | hj2
    · exact ⟨[], c, rfl, FChain.cons j c hi hc⟩
    · obtain ⟨pre, cs, heq, hch⟩ := ih hj2
      exact ⟨i :: pre, cs, by rw [heq, List.cons_append], hch⟩

theorem fchain_mem_next {b : Nat} {f : Nat → Option Nat} {p : Option Nat}
    {c : List Nat} (h : FChain b f p c) {j j2 : Nat} (hj : j ∈ c)
    (hf : f j = some j2) : j2 ∈ c := by
  obtain ⟨pre, cs, heq, hch⟩ := fchain_suffix h hj
  obtain ⟨cs2, heq2, _, hch2⟩ := fchain_some_inv hch
  injection heq2 with _ heq3
  subst heq3
  rw [hf] at hch2
  obtain ⟨cs3, heq3, _, _⟩ := fchain_some_inv hch2
  subst heq
  subst heq3
  simp

theorem fseg_append {b : Nat} {f : Nat → Option Nat} {p q r : Option Nat}
    {c1 c2 : List Nat} (h1 : FSeg b f p c1 q) (h2 : FSeg b f q c2 r) :
    FSeg b f p (c1 ++ c2) r := by
  induction h1 with
  | nil => exact h2
  | cons i c q2 hi hc ih => exact FSeg.cons i (c ++ c2) r hi (ih h2)

theorem fseg_none_fchain {b : Nat} {f : Nat → Option Nat} {p q : Option Nat}
    {c : List Nat} (h : FSeg b f p c q) (hq : q = none) : FChain b f p c := by
  induction h with
  | nil => subst hq; exact FChain.nil
  | cons i c q2 hi hc ih => exact FChain.cons i c hi (ih hq)

theorem fchain_fseg_none {b : Nat} {f : Nat → Option Nat} {p : Option Nat}
    {c : List Nat} (h : FChain b f p c) : FSeg b f p c none := by
  induction h with
  | nil => exact FSeg.nil none
  | cons i c hi hc ih => exact FSeg.cons i c none hi ih

theorem fchain_split {b : Nat} {f : Nat → Option Nat} {p : Option Nat}
    {c1 c2 : List Nat} (h : FChain b f p (c1 ++ c2)) :
    ∃ q, FSeg b f p c1 q ∧ FChain b f q c2 := by
  induction c1 generalizing p with
  | nil => exact ⟨p, FSeg.nil p, h⟩
  | cons a c1 ih =>
    rw [List.cons_append] at h
    cases h with
    | cons _ _ hi hc =>
      obtain ⟨q, hs, hch⟩ := ih hc
      exact ⟨q, FSeg.cons a c1 q hi hs, hch⟩

theorem fchain_congr {b b1 : Nat} {f f1 : Nat → Option Nat} {p : Option Nat}
    {c : List Nat} (hb : b ≤ b1) (hf : ∀ j ∈ c, f1 j = f j)
    (h : FChain b f p c) : FChain b1 f1 p c := by
  induction h with
  | nil => exact FChain.nil
  | cons i c hi hc ih =>
    refine FChain.cons i c (by omega) ?_
    rw [hf i (List.mem_cons_self i c)]
    exact ih (fun j hj => hf j (List.mem_cons_of_mem _ hj))

theorem fseg_congr {b b1 : Nat} {f f1 : Nat → Option Nat} {p q : Option Nat}
    {c : List Nat} (hb : b ≤ b1) (hf : ∀ j ∈ c, f1 j = f j)
    (h : FSeg b f p c q) : FSeg b1 f1 p c q := by
  induction h with
  | nil => exact FSeg.nil _
  | cons i c q2 hi hc ih =>
    refine FSeg.cons i c q2 (by omega) ?_
    rw [hf i (List.mem_cons_self i c)]
    exact ih (fun j hj => hf j (List.mem_cons_of_mem _ hj))

theorem chainSorted_nodup {cmp : K → K → Int} {s : SL K} {c : List Nat}
    (hc : IsCmp cmp) (hs : chainSorted cmp s c) : c.Nodup := by
  refine hs.imp ?_
  intro i j hij
  rintro rfl
  obtain ⟨ni, nj, hni, hnj, hlt⟩ := hij
  rw [hni] at hnj
  injection hnj with hinj
  subst hinj
  have := hc.eq_refl ni.key
  omega

theorem nodup_bound_length {c : List Nat} {b : Nat} (hn : c.Nodup)
    (hb : ∀ j ∈ c, j < b) : c.length ≤ b := by
  classical
  have h1 : c.toFinset.card = c.length := List.toFinset_card_of_nodup hn
  have h2 : c.toFinset ⊆ Finset.range b := by
    intro x hx
    rw [List.mem_toFinset] at hx
    rw [Finset.mem_range]
    exact hb x hx
  have h3 := Finset.card_le_card h2
  rw [Finset.card_range] at h3
  omega

theorem ltNodeB_iff {cmp : K → K → Int} {s : SL K} {k : K} {i : Nat} :
    ltNodeB cmp s k i = true ↔
      ∃ n, s.nodes[i]? = some n ∧ cmp n.key k < 0 := by
  unfold ltNodeB KeyIsAfterNode
  cases hn : s.nodes[i]? <;> simp [hn]

/-- In a sorted chain, everything before an element whose key is below k
also has its key below k. -/
theorem before_lt {cmp : K → K → Int} {s : SL K} {k : K} (hc : IsCmp cmp)
    {c pre cs : List Nat} {j : Nat} (hs : chainSorted cmp s c)
    (heq : c = pre ++ j :: cs) (hj : ltNodeB cmp s k j = true) :
    ∀ e ∈ pre, ltNodeB cmp s k e = true := by
  subst heq
  intro e he
  rw [ltNodeB_iff] at hj
  obtain ⟨nj, hnj, hltj⟩ := hj
  have hpair : nodeKeyLt cmp s e j := by
    have hsp := List.pairwise_append.mp hs
    exact hsp.2.2 e he j (List.mem_cons_self j cs)
  obtain ⟨ne, nj2, hne, hnj2, hlt2⟩ := hpair
  rw [hnj] at hnj2
  injection hnj2 with hinj
  subst hinj
  rw [ltNodeB_iff]
  exact ⟨ne, hne, hc.lt_trans _ _ _ hlt2 hltj⟩

theorem takeWhile_of_all {p : Nat → Bool} :
    ∀ {pre : List Nat}, (∀ e ∈ pre, p e = true) →
      ∀ suf : List Nat,
      (pre ++ suf).takeWhile p = pre ++ suf.takeWhile p ∧
      (pre ++ suf).dropWhile p = suf.dropWhile p := by
  intro pre
  induction pre with
  | nil => intro _ suf; simp
  | cons a pre ih =>
    intro hall suf
    have ha : p a = true := hall a (List.mem_cons_self a pre)
    have hrest : ∀ e ∈ pre, p e = true :=
      fun e he => hall e (List.mem_cons_of_mem a he)
    obtain ⟨h1, h2⟩ := ih hrest suf
    constructor
    · rw [List.cons_append, List.takeWhile_cons, if_pos ha, h1,
        List.cons_append]
    · rw [List.cons_append, List.dropWhile_cons, if_pos ha, h2]

theorem find_not_skip {p : Nat → Bool} :
    ∀ {pre : List Nat}, (∀ e ∈ pre, p e = true) → ∀ suf : List Nat,
      (pre ++ suf).find? (fun i => ! p i) = suf.find? (fun i => ! p i) := by
  intro pre
  induction pre with
  | nil => intro _ suf; simp
  | cons a pre ih =>
    intro hall suf
    have ha : p a = true := hall a (List.mem_cons_self a pre)
    have hrest : ∀ e ∈ pre, p e = true :=
      fun e he => hall e (List.mem_cons_of_mem a he)
    rw [List.cons_append, List.find?_cons]
    rw [ha]
    simp only [Bool.not_true]
    exact ih hrest suf

theorem fchain_nil_inv {b : Nat} {f : Nat → Option Nat} {p : Option Nat}
    (h : FChain b f p []) : p = none := by
  cases h; rfl

theorem fchain_cons_inv {b : Nat} {f : Nat → Option Nat} {p : Option Nat}
    {j : Nat} {cs : List Nat} (h : FChain b f p (j :: cs)) :
    p = some j ∧ j < b ∧ FChain b f (f j) cs := by
  cases h with
  | cons _ _ hi hc => exact ⟨rfl, hi, hc⟩

theorem head_lt_len {cmp : K → K → Int} {s : SL K} (hw : WF cmp s) :
    0 < s.nodes.length := by
  obtain ⟨hd, hhd, _⟩ := hw.head_ex
  cases hn : s.nodes with
  | nil => rw [hn] at hhd; simp at hhd
  | cons a l => simp

theorem chain_length_le {cmp : K → K → Int} {s : SL K} (hc : IsCmp cmp)
    {L : Nat} {p : Option Nat} {c : List Nat} (hch : IsChain s L p c)
    (hs : chainSorted cmp s c) : c.length ≤ s.nodes.length :=
  nodup_bound_length (chainSorted_nodup hc hs) (fchain_mem_lt hch)

theorem getD_set_self {l : List Nat} {i : Nat} (h : i < l.length) (a : Nat) :
    (l.set i a).getD i 0 = a := by
  rw [List.getD_eq_getElem?_getD, List.getElem?_set_self h]
  rfl

theorem getD_set_ne {l : List Nat} {i j : Nat} (h : i ≠ j) (a : Nat) :
    (l.set i a).getD j 0 = l.getD j 0 := by
  rw [List.getD_eq_getElem?_getD, List.getD_eq_getElem?_getD,
    List.getElem?_set_ne h]

/-- The central lemma about the FindGreaterOrEqual loop.  At a state
(x, level, prev) whose position is described by a decomposition of the
full level chain, and with enough fuel, the loop returns the first level-0
chain element whose key is at or after k, and fills prev[0..level] with the
last node below k at each of those levels, leaving higher prev entries
untouched. -/
theorem findGEAux_spec {cmp : K → K → Int} (hc : IsCmp cmp) {s : SL K}
    (hw : WF cmp s) (k : K) :
    ∀ fuel level x prev suffix,
      level < s.maxHeight →
      prev.length = kMaxHeight →
      ((x = 0 ∧ IsChain s level (headNext s level) suffix) ∨
        (∃ pre, ltNodeB cmp s k x = true ∧
          IsChain s level (headNext s level) (pre ++ x :: suffix))) →
      suffix.length + 1 + level * (s.nodes.length + 1) ≤ fuel →
      (∀ c0, IsChain s 0 (headNext s 0) c0 →
        (FindGreaterOrEqualAux cmp s k fuel x level prev).1 =
          firstGE cmp s k c0) ∧
      (∀ L1, L1 ≤ level → ∀ cL, IsChain s L1 (headNext s L1) cL →
        (FindGreaterOrEqualAux cmp s k fuel x level prev).2.getD L1 0 =
          lastLT cmp s k cL) ∧
      (∀ L1, level < L1 →
        (FindGreaterOrEqualAux cmp s k fuel x level prev).2.getD L1 0 =
          prev.getD L1 0) ∧
      (FindGreaterOrEqualAux cmp s k fuel x level prev).2.length =
        prev.length := by
  intro fuel
  induction fuel with
  | zero =>
    intro level x prev suffix hlev hplen hpos hfuel
    omega
  | succ fu ih =>
    intro level x prev suffix hlev hplen hpos hfuel
    obtain ⟨cfull, hcf, hsortf, hcharf⟩ :=
      hw.chains level (lt_of_lt_of_le hlev hw.mh_le)
    -- a uniform decomposition of the full chain around the position x
    have hmain : ∃ hd_part : List Nat, cfull = hd_part ++ suffix ∧
        (∀ e ∈ hd_part, ltNodeB cmp s k e = true) ∧
        IsChain s level (nextPtr s x level) suffix ∧
        x < s.nodes.length ∧ hd_part.getLast?.getD 0 = x := by
      rcases hpos with ⟨hx0, hsufch⟩ | ⟨pre, hxlt, hfullch⟩
      · subst hx0
        refine ⟨[], ?_, by simp, hsufch, head_lt_len hw, rfl⟩
        simpa using fchain_det hcf hsufch
      · have hdet : cfull = pre ++ x :: suffix := fchain_det hcf hfullch
        obtain ⟨q, hseg, hrest⟩ := @fchain_split _ _ _ pre _ hfullch
        obtain ⟨hq, hxb, hnxt⟩ := fchain_cons_inv hrest
        refine ⟨pre ++ [x], by rw [hdet]; simp, ?_, hnxt, hxb, ?_⟩
        · intro e he
          rcases List.mem_append.mp he with hpre | hx
          · exact before_lt hc hsortf hdet hxlt e hpre
          · rw [List.mem_singleton.mp hx]
            exact hxlt
        · rw [List.getLast?_concat]
          rfl
    obtain ⟨hd_part, hcdec, hall, hnxt, hxlen, hlast⟩ := hmain
    by_cases hadv : KeyIsAfterNode cmp s k (nextPtr s x level) = true
    · -- advance horizontally to the next node
      have hsome : ∃ j, nextPtr s x level = some j := by
        cases hnp : nextPtr s x level with
        | none => rw [hnp] at hadv; simp [KeyIsAfterNode] at hadv
        | some j => exact ⟨j, rfl⟩
      obtain ⟨j, hnp⟩ := hsome
      have hjlt : ltNodeB cmp s k j = true := by
        rw [ltNodeB, ← hnp]
        exact hadv
      rw [hnp] at hnxt
      obtain ⟨rest, hsufeq, hjb, hjch⟩ := fchain_some_inv hnxt
      have hstep : FindGreaterOrEqualAux cmp s k (fu + 1) x level prev =
          FindGreaterOrEqualAux cmp s k fu j level prev := by
        simp only [FindGreaterOrEqualAux]
        rw [if_pos (by rw [hnp] at hadv ⊢; exact hadv)]
        rw [hnp]
        rfl
      rw [hstep]
      apply ih level j prev rest hlev hplen
      · right
        refine ⟨hd_part, hjlt, ?_⟩
        rw [← hsufeq, ← hcdec]
        exact hcf
      · subst hsufeq
        simp only [List.length_cons] at hfuel
        omega
    · -- blocked: record prev[level] = x, then return or descend
      have hxlt0 : x = 0 ∨ ltNodeB cmp s k x = true := by
        rcases hpos with ⟨hx0, _⟩ | ⟨_, hxlt, _⟩
        · exact Or.inl hx0
        · exact Or.inr hxlt
      have hsufTW : suffix.takeWhile (ltNodeB cmp s k) = [] := by
        cases hsuf : suffix with
        | nil => rfl
        | cons j rest =>
          rw [hsuf] at hnxt
          obtain ⟨hpj, _, _⟩ := fchain_cons_inv hnxt
          have hjlt : ¬ ltNodeB cmp s k j = true := by
            intro hj
            apply hadv
            rw [hpj]
            exact hj
          rw [List.takeWhile_cons_of_neg hjlt]
      have hlastLT : ∀ cL, IsChain s level (headNext s level) cL →
          lastLT cmp s k cL = x := by
        intro cL hchL
        have hdetL : cL = cfull := fchain_det hchL hcf
        rw [hdetL, hcdec, lastLT]
        obtain ⟨ht, _⟩ := takeWhile_of_all hall suffix
        rw [ht, hsufTW, List.append_nil, hlast]
      have hfirstGE : ∀ c0, IsChain s 0 (headNext s 0) c0 → level = 0 →
          firstGE cmp s k c0 = nextPtr s x level := by
        intro c0 hch0 h0
        subst h0
        have hdet0 : c0 = cfull := fchain_det hch0 hcf
        rw [hdet0, hcdec, firstGE, find_not_skip hall]
        cases hsuf : suffix with
        | nil =>
          rw [hsuf] at hnxt
          rw [fchain_nil_inv hnxt]
          rfl
        | cons j rest =>
          rw [hsuf] at hnxt
          obtain ⟨hpj, _, _⟩ := fchain_cons_inv hnxt
          have hjlt : ¬ ltNodeB cmp s k j = true := by
            intro hj
            apply hadv
            rw [hpj]
            exact hj
          rw [List.find?_cons_of_pos _ (by simp [hjlt]), hpj]
      by_cases h0 : level = 0
      · subst h0
        have hstep : FindGreaterOrEqualAux cmp s k (fu + 1) x 0 prev =
            (nextPtr s x 0, prev.set 0 x) := by
          simp only [FindGreaterOrEqualAux]
          rw [if_neg hadv]
          rfl
        rw [hstep]
        refine ⟨?_, ?_, ?_, ?_⟩
        · intro c0 hch0
          exact (hfirstGE c0 hch0 rfl).symm
        · intro L1 hL1 cL hchL
          have : L1 = 0 := by omega
          subst this
          rw [getD_set_self (by rw [hplen]; unfold kMaxHeight; omega) x,
            hlastLT cL hchL]
        · intro L1 hL1
          exact getD_set_ne (by omega) x
        · exact List.length_set prev 0 x
      · -- descend one level
        have hstep : FindGreaterOrEqualAux cmp s k (fu + 1) x level prev =
            FindGreaterOrEqualAux cmp s k fu x (level - 1)
              (prev.set level x) := by
          simp only [FindGreaterOrEqualAux]
          rw [if_neg hadv, if_neg h0]
        rw [hstep]
        have hLd : level - 1 < kMaxHeight := by
          have := hw.mh_le
          omega
        obtain ⟨cdown, hcd, hsortd, hchard⟩ := hw.chains (level - 1) hLd
        have hcdlen : cdown.length ≤ s.nodes.length :=
          chain_length_le hc hcd hsortd
        have hposd : ∃ sufd : List Nat, sufd.length ≤ s.nodes.length ∧
            ((x = 0 ∧ IsChain s (level - 1) (headNext s (level - 1)) sufd) ∨
              (∃ pre2, ltNodeB cmp s k x = true ∧
                IsChain s (level - 1) (headNext s (level - 1))
                  (pre2 ++ x :: sufd))) := by
          rcases hpos with ⟨hx0, _⟩ | ⟨pre, hxlt, hfullch⟩
          · exact ⟨cdown, hcdlen, Or.inl ⟨hx0, hcd⟩⟩
          · have hdet : cfull = pre ++ x :: suffix := fchain_det hcf hfullch
            have hxmem : x ∈ cfull := by
              rw [hdet]
              exact List.mem_append.mpr (Or.inr (List.mem_cons_self x suffix))
            have hxd : x ∈ cdown := by
              rw [hchard]
              have h1 := (hcharf x).mp hxmem
              exact ⟨h1.1, h1.2.1, by omega⟩
            obtain ⟨pre2, cs2, hceq, hch2⟩ := fchain_suffix hcd hxd
            refine ⟨cs2, ?_, Or.inr ⟨pre2, hxlt, by rw [← hceq]; exact hcd⟩⟩
            rw [hceq] at hcdlen
            simp only [List.length_append, List.length_cons] at hcdlen
            omega
        obtain ⟨sufd, hsfdlen, hposd2⟩ := hposd
        have hmul : level * (s.nodes.length + 1) =
            (level - 1) * (s.nodes.length + 1) + (s.nodes.length + 1) := by
          cases level with
          | zero => exact absurd rfl h0
          | succ lev =>
            simp only [Nat.succ_sub_one]
            rw [Nat.succ_mul]
        have hih := ih (level - 1) x (prev.set level x) sufd (by omega)
          (by rw [List.length_set]; exact hplen) hposd2
          (by rw [hmul] at hfuel; omega)
        obtain ⟨hih1, hih2, hih3, hih4⟩ := hih
        refine ⟨hih1, ?_, ?_, ?_⟩
        · intro L1 hL1 cL hchL
          by_cases hL1v : L1 ≤ level - 1
          · exact hih2 L1 hL1v cL hchL
          · have hL1e : L1 = level := by omega
            subst hL1e
            rw [hih3 L1 (by omega),
              getD_set_self (by rw [hplen]; exact lt_of_lt_of_le hlev hw.mh_le) x]
            exact (hlastLT cL hchL).symm
        · intro L1 hL1
          rw [hih3 L1 (by omega), getD_set_ne (by omega) x]
        · rw [hih4, List.length_set]

theorem getD_replicate_zero (n i : Nat) :
    (List.replicate n (0 : Nat)).getD i 0 = 0 := by
  rw [List.getD_eq_getElem?_getD, List.getElem?_replicate]
  by_cases h : i < n <;> simp [h]

/-- The FindGreaterOrEqual wrapper: on a well-formed list the result is the
first level-0 chain node at or after k, prev[L] is the last node below k
for every L below the list height, and the prev entries at and above the
height keep their initial value 0 (the head index). -/
theorem findGE_spec {cmp : K → K → Int} (hc : IsCmp cmp) {s : SL K}
    (hw : WF cmp s) (k : K) :
    (∀ c0, IsChain s 0 (headNext s 0) c0 →
      (FindGreaterOrEqual cmp s k).1 = firstGE cmp s k c0) ∧
    (∀ L, L < s.maxHeight → ∀ cL, IsChain s L (headNext s L) cL →
      (FindGreaterOrEqual cmp s k).2.getD L 0 = lastLT cmp s k cL) ∧
    (∀ L, s.maxHeight ≤ L →
      (FindGreaterOrEqual cmp s k).2.getD L 0 = 0) ∧
    (FindGreaterOrEqual cmp s k).2.length = kMaxHeight := by
  obtain ⟨ctop, hctop, hsorttop, _⟩ := hw.chains (s.maxHeight - 1)
    (by have := hw.mh_le; have := hw.mh_pos; omega)
  have hlen : ctop.length ≤ s.nodes.length := chain_length_le hc hctop hsorttop
  have hmul : s.maxHeight * (s.nodes.length + 1) =
      (s.maxHeight - 1) * (s.nodes.length + 1) + (s.nodes.length + 1) := by
    cases hm : s.maxHeight with
    | zero =>
      have := hw.mh_pos
      omega
    | succ m =>
      simp only [Nat.succ_sub_one]
      rw [Nat.succ_mul]
  have hspec := findGEAux_spec hc hw k (searchFuel s) (s.maxHeight - 1) 0
    (List.replicate kMaxHeight 0) ctop (by have := hw.mh_pos; omega)
    (by simp) (Or.inl ⟨rfl, hctop⟩)
    (by unfold searchFuel; rw [hmul]; omega)
  obtain ⟨h1, h2, h3, h4⟩ := hspec
  have hmp := hw.mh_pos
  simp only [FindGreaterOrEqual]
  refine ⟨h1, ?_, ?_, ?_⟩
  · intro L hL cL hchL
    exact h2 L (by omega) cL hchL
  · intro L hL
    rw [h3 L (by omega), getD_replicate_zero]
  · rw [h4, List.length_replicate]

/-- find? decomposes its list at the first hit. -/
theorem find_some_split {p : Nat → Bool} :
    ∀ {c : List Nat} {j : Nat}, c.find? p = some j →
      ∃ pre post, c = pre ++ j :: post ∧ (∀ e ∈ pre, p e = false) ∧
        p j = true := by
  intro c
  induction c with
  | nil => intro j h; simp at h
  | cons a c ihc =>
    intro j h
    rw [List.find?_cons] at h
    cases hpa : p a with
    | true =>
      rw [hpa] at h
      injection h with h
      subst h
      exact ⟨[], c, rfl, by simp, hpa⟩
    | false =>
      rw [hpa] at h
      obtain ⟨pre, post, heq, hpre, hpj⟩ := ihc h
      refine ⟨a :: pre, post, by rw [heq, List.cons_append], ?_, hpj⟩
      intro e he
      rcases List.mem_cons.mp he with rfl | he2
      · exact hpa
      · exact hpre e he2

theorem mem_len_of_getElem? {l : List (Node K)} {i : Nat} {n : Node K}
    (h : l[i]? = some n) : i < l.length := by
  obtain ⟨hlt, _⟩ := List.getElem?_eq_some_iff.mp h
  exact hlt

/-- Contains is correct on well-formed lists: true exactly when some
non-head node's key is comparator-equal to k. -/
theorem Contains_iff {cmp : K → K → Int} (hc : IsCmp cmp) {s : SL K}
    (hw : WF cmp s) (k : K) :
    Contains cmp s k = true ↔
      ∃ i n, 1 ≤ i ∧ s.nodes[i]? = some n ∧ cmp k n.key = 0 := by
  obtain ⟨c0, hch0, hsort0, hchar0⟩ := hw.chains 0 (by unfold kMaxHeight; omega)
  have hres := (findGE_spec hc hw k).1 c0 hch0
  have hmemc0 : ∀ i n, 1 ≤ i → s.nodes[i]? = some n → i ∈ c0 := by
    intro i n hi hn
    rw [hchar0]
    have hilen : i < s.nodes.length := mem_len_of_getElem? hn
    exact ⟨hi, hilen, hw.height_pos i hi hilen⟩
  rw [Contains, hres]
  cases hfg : firstGE cmp s k c0 with
  | none =>
    simp only [Bool.false_eq_true, false_iff]
    rintro ⟨i, n, hi, hn, heq⟩
    have hic0 : i ∈ c0 := hmemc0 i n hi hn
    have hall := List.find?_eq_none.mp hfg i hic0
    have hall2 : ltNodeB cmp s k i = true := by
      cases hb : ltNodeB cmp s k i with
      | true => rfl
      | false => exact absurd (by rw [hb]; rfl) hall
    rw [ltNodeB_iff] at hall2
    obtain ⟨n2, hn2, hlt2⟩ := hall2
    rw [hn] at hn2
    injection hn2 with hn2
    subst hn2
    have := hc.eq_symm heq
    omega
  | some j =>
    obtain ⟨pre, post, hc0eq, hpre, hpj⟩ := find_some_split hfg
    have hjmem : j ∈ c0 := List.mem_of_find?_eq_some hfg
    have hjlen : j < s.nodes.length := ((hchar0 j).mp hjmem).2.1
    have hj1 : 1 ≤ j := ((hchar0 j).mp hjmem).1
    obtain ⟨nj, hnj⟩ : ∃ nj, s.nodes[j]? = some nj := by
      cases hx : s.nodes[j]? with
      | none =>
        rw [List.getElem?_eq_none_iff] at hx
        omega
      | some nj => exact ⟨nj, rfl⟩
    have hjnotlt : ltNodeB cmp s k j = false := by
      simp only [Bool.not_eq_true'] at hpj
      simpa using hpj
    simp only [hnj, decide_eq_true_eq]
    constructor
    · intro h
      exact ⟨j, nj, hj1, hnj, h⟩
    · rintro ⟨i, n, hi, hn, heq⟩
      have hic0 : i ∈ c0 := hmemc0 i n hi hn
      have hinotlt : cmp n.key k = 0 := hc.eq_symm heq
      rw [hc0eq] at hic0
      rcases List.mem_append.mp hic0 with hipre | hirest
      · exfalso
        have hfalse : (! ltNodeB cmp s k i) = false := hpre i hipre
        have hlt : ltNodeB cmp s k i = true := by
          cases hb : ltNodeB cmp s k i with
          | true => rfl
          | false => rw [hb] at hfalse; simp at hfalse
        rw [ltNodeB_iff] at hlt
        obtain ⟨n2, hn2, hlt2⟩ := hlt
        rw [hn] at hn2
        injection hn2 with hn2
        subst hn2
        omega
      · rcases List.mem_cons.mp hirest with rfl | hipost
        · rw [hn] at hnj
          injection hnj with hnj
          subst hnj
          exact heq
        · exfalso
          rw [hc0eq] at hsort0
          have hsp := List.pairwise_append.mp hsort0
          have hj_lt_i : nodeKeyLt cmp s j i :=
            (List.pairwise_cons.mp hsp.2.1).1 i hipost
          obtain ⟨nj2, ni2, hnj2, hni2, hlt2⟩ := hj_lt_i
          rw [hnj] at hnj2
          injection hnj2 with hnj2
          subst hnj2
          rw [hn] at hni2
          injection hni2 with hni2
          subst hni2
          have hjk : cmp nj.key k < 0 :=
            (hc.congr_right_lt nj.key heq).mpr hlt2
          have : ltNodeB cmp s k j = true := by
            rw [ltNodeB_iff]
            exact ⟨nj, hnj, hjk⟩
          rw [this] at hjnotlt
          exact absurd hjnotlt (by simp)

theorem heightOf_eq (s : SL K) (i : Nat) :
    heightOf s i = heightInNodes s.nodes i := rfl

theorem getElem?_some_of_lt {α : Type} {l : List α} {i : Nat}
    (h : i < l.length) : ∃ a, l[i]? = some a :=
  ⟨l[i], List.getElem?_eq_some_iff.mpr ⟨h, rfl⟩⟩

theorem lt_len_of_getElem? {α : Type} {l : List α} {i : Nat} {a : α}
    (h : l[i]? = some a) : i < l.length := by
  obtain ⟨hlt, _⟩ := List.getElem?_eq_some_iff.mp h
  exact hlt

theorem setNext_length (nodes : List (Node K)) (i L : Nat) (p : Option Nat) :
    (setNextInNodes nodes i L p).length = nodes.length := by
  unfold setNextInNodes
  cases h : nodes[i]? <;> simp

theorem setNext_keyAt (nodes : List (Node K)) (i L : Nat) (p : Option Nat)
    (j : Nat) : keyAtN (setNextInNodes nodes i L p) j = keyAtN nodes j := by
  unfold setNextInNodes keyAtN
  cases h : nodes[i]? with
  | none => rfl
  | some nd =>
    by_cases hj : j = i
    · subst hj
      rw [List.getElem?_set_self (lt_len_of_getElem? h), h]
      rfl
    · rw [List.getElem?_set_ne (fun he => hj he.symm)]

theorem setNext_height (nodes : List (Node K)) (i L : Nat) (p : Option Nat)
    (j : Nat) :
    heightInNodes (setNextInNodes nodes i L p) j = heightInNodes nodes j := by
  unfold setNextInNodes heightInNodes
  cases h : nodes[i]? with
  | none => rfl
  | some nd =>
    by_cases hj : j = i
    · subst hj
      rw [List.getElem?_set_self (lt_len_of_getElem? h), h]
      simp
    · rw [List.getElem?_set_ne (fun he => hj he.symm)]

theorem setNext_next_self {nodes : List (Node K)} {i L : Nat} {nd : Node K}
    (hi : nodes[i]? = some nd) (hL : L < nd.next.length) (p : Option Nat) :
    nextInNodes (setNextInNodes nodes i L p) i L = p := by
  unfold nextInNodes setNextInNodes
  rw [hi, List.getElem?_set_self (lt_len_of_getElem? hi)]
  simp only
  rw [List.getD_eq_getElem?_getD, List.getElem?_set_self hL]
  rfl

theorem setNext_next_ne {nodes : List (Node K)} {i L j L' : Nat}
    (h : j ≠ i ∨ L' ≠ L) (p : Option Nat) :
    nextInNodes (setNextInNodes nodes i L p) j L' = nextInNodes nodes j L' := by
  unfold nextInNodes setNextInNodes
  cases hi : nodes[i]? with
  | none => rfl
  | some nd =>
    by_cases hj : j = i
    · subst hj
      rcases h with hj2 | hL2
      · exact absurd rfl hj2
      · rw [List.getElem?_set_self (lt_len_of_getElem? hi), hi]
        simp only
        rw [List.getD_eq_getElem?_getD, List.getD_eq_getElem?_getD,
          List.getElem?_set_ne (fun he => hL2 he.symm)]
    · rw [List.getElem?_set_ne (fun he => hj he.symm)]

theorem linkLoop_length (pr : List Nat) (newIdx : Nat) :
    ∀ (m : Nat) (nodes : List (Node K)),
      (linkLoop pr newIdx m nodes).length = nodes.length := by
  intro m
  induction m with
  | zero => intro nodes; rfl
  | succ m ihm =>
    intro nodes
    simp only [linkLoop]
    rw [setNext_length, ihm]

theorem linkLoop_keyAt (pr : List Nat) (newIdx : Nat) :
    ∀ (m : Nat) (nodes : List (Node K)) (j : Nat),
      keyAtN (linkLoop pr newIdx m nodes) j = keyAtN nodes j := by
  intro m
  induction m with
  | zero => intro nodes j; rfl
  | succ m ihm =>
    intro nodes j
    simp only [linkLoop]
    rw [setNext_keyAt, ihm]

theorem linkLoop_height (pr : List Nat) (newIdx : Nat) :
    ∀ (m : Nat) (nodes : List (Node K)) (j : Nat),
      heightInNodes (linkLoop pr newIdx m nodes) j = heightInNodes nodes j := by
  intro m
  induction m with
  | zero => intro nodes j; rfl
  | succ m ihm =>
    intro nodes j
    simp only [linkLoop]
    rw [setNext_height, ihm]

/-- The combined effect of the publication loop on the forward-pointer
graph: slot (prev[L'], L') now carries the new node for every linked level
L', and every other slot is untouched. -/
theorem linkLoop_next (pr : List Nat) (newIdx : Nat) :
    ∀ (m : Nat) (nodes : List (Node K)),
      (∀ i, i < m → pr.getD i 0 < nodes.length ∧
        i < heightInNodes nodes (pr.getD i 0)) →
      ∀ j L', nextInNodes (linkLoop pr newIdx m nodes) j L' =
        if L' < m ∧ j = pr.getD L' 0 then some newIdx
        else nextInNodes nodes j L' := by
  intro m
  induction m with
  | zero =>
    intro nodes hb j L'
    rw [if_neg (by omega)]
    rfl
  | succ m ihm =>
    intro nodes hb j L'
    simp only [linkLoop]
    by_cases hcase : L' = m ∧ j = pr.getD m 0
    · obtain ⟨hL', hj⟩ := hcase
      subst hL'
      subst hj
      obtain ⟨hblen, hbht⟩ := hb L' (by omega)
      have hlen2 : pr.getD L' 0 < (linkLoop pr newIdx L' nodes).length := by
        rw [linkLoop_length]
        exact hblen
      obtain ⟨nd, hnd⟩ := getElem?_some_of_lt hlen2
      have hht : L' < nd.next.length := by
        have hh := linkLoop_height pr newIdx L' nodes (pr.getD L' 0)
        have hh2 : heightInNodes (linkLoop pr newIdx L' nodes)
            (pr.getD L' 0) = nd.next.length := by
          unfold heightInNodes
          rw [hnd]
        omega
      rw [setNext_next_self hnd hht]
      rw [if_pos ⟨by omega, rfl⟩]
    · have hne : j ≠ pr.getD m 0 ∨ L' ≠ m := by tauto
      rw [setNext_next_ne (by tauto) _]
      rw [ihm nodes (fun i hi => hb i (by omega)) j L']
      by_cases h2 : L' < m ∧ j = pr.getD L' 0
      · rw [if_pos h2, if_pos ⟨by omega, h2.2⟩]
      · rw [if_neg h2, if_neg ?_]
        intro h3
        obtain ⟨h3a, h3b⟩ := h3
        by_cases hLm : L' < m
        · exact h2 ⟨hLm, h3b⟩
        · have : L' = m := by omega
          exact hcase ⟨this, by rw [← this]; exact h3b⟩

theorem padPrev_length (lo : Nat) :
    ∀ (n : Nat) (pr : List Nat), (padPrev lo n pr).length = pr.length := by
  intro n
  induction n with
  | zero => intro pr; rfl
  | succ n ihn =>
    intro pr
    simp only [padPrev]
    rw [List.length_set, ihn]

theorem padPrev_getD (lo : Nat) :
    ∀ (n : Nat) (pr : List Nat) (i : Nat), (padPrev lo n pr).getD i 0 =
      if lo ≤ i ∧ i < lo + n then 0 else pr.getD i 0 := by
  intro n
  induction n with
  | zero =>
    intro pr i
    rw [if_neg (by omega)]
    rfl
  | succ n ihn =>
    intro pr i
    simp only [padPrev]
    by_cases hi : i = lo + n
    · subst hi
      by_cases hlen : lo + n < (padPrev lo n pr).length
      · rw [getD_set_self hlen, if_pos ⟨by omega, by omega⟩]
      · rw [List.set_eq_of_length_le (by omega), ihn,
          if_neg (by omega), if_pos ⟨by omega, by omega⟩]
        rw [padPrev_length] at hlen
        rw [List.getD_eq_getElem?_getD, List.getElem?_eq_none (by omega)]
        rfl
    · rw [getD_set_ne (fun he => hi he.symm), ihn]
      by_cases h2 : lo ≤ i ∧ i < lo + n
      · rw [if_pos h2, if_pos ⟨h2.1, by omega⟩]
      · rw [if_neg h2, if_neg (by omega)]

theorem range_map_getD {f : Nat → Option Nat} {h L : Nat} (hL : L < h) :
    ((List.range h).map f).getD L none = f L := by
  rw [List.getD_eq_getElem?_getD, List.getElem?_map, List.getElem?_range hL]
  rfl

theorem range_map_getD_ge {f : Nat → Option Nat} {h L : Nat} (hL : h ≤ L) :
    ((List.range h).map f).getD L none = none := by
  rw [List.getD_eq_getElem?_getD, List.getElem?_map,
    List.getElem?_eq_none (by simpa using hL)]
  rfl

theorem fseg_nil_inv {b : Nat} {f : Nat → Option Nat} {p q : Option Nat}
    (h : FSeg b f p [] q) : q = p := by
  cases h; rfl

theorem fseg_split {b : Nat} {f : Nat → Option Nat} {p r : Option Nat} :
    ∀ {c1 c2 : List Nat}, FSeg b f p (c1 ++ c2) r →
      ∃ q, FSeg b f p c1 q ∧ FSeg b f q c2 r := by
  intro c1
  induction c1 generalizing p with
  | nil => intro c2 h; exact ⟨p, FSeg.nil p, h⟩
  | cons a c1 ih =>
    intro c2 h
    rw [List.cons_append] at h
    cases h with
    | cons _ _ _ hi hc =>
      obtain ⟨q, hs, hch⟩ := ih hc
      exact ⟨q, FSeg.cons a c1 q hi hs, hch⟩

theorem fseg_cons_inv {b : Nat} {f : Nat → Option Nat} {p r : Option Nat}
    {j : Nat} {cs : List Nat} (h : FSeg b f p (j :: cs) r) :
    p = some j ∧ j < b ∧ FSeg b f (f j) cs r := by
  cases h with
  | cons _ _ _ hi hcseg => exact ⟨rfl, hi, hcseg⟩

theorem fseg_last {b : Nat} {f : Nat → Option Nat} {p q : Option Nat}
    {A : List Nat} {y : Nat} (h : FSeg b f p (A ++ [y]) q) :
    q = f y ∧ y < b := by
  obtain ⟨q2, h1, h2⟩ := fseg_split h
  cases h2 with
  | cons _ _ _ hy hc => exact ⟨(fseg_nil_inv hc).symm ▸ rfl, hy⟩

theorem dropWhile_head_false {p : Nat → Bool} :
    ∀ {l : List Nat} {j : Nat} {rest : List Nat},
      l.dropWhile p = j :: rest → p j = false := by
  intro l
  induction l with
  | nil => intro j rest h; simp at h
  | cons a l ihl =>
    intro j rest h
    rw [List.dropWhile_cons] at h
    by_cases hpa : p a
    · rw [if_pos hpa] at h
      exact ihl h
    · rw [if_neg hpa] at h
      injection h with h1 h2
      subst h1
      exact Bool.eq_false_iff.mpr hpa

theorem insert_nodes_eq (cmp : K → K → Int) (s : SL K) (key : K) (h : Nat) :
    (Insert cmp s key h).nodes =
      linkLoop (insPrev cmp s key h) s.nodes.length h
        (s.nodes ++ [⟨key, insNexts cmp s key h⟩]) := rfl

theorem insert_mh_eq (cmp : K → K → Int) (s : SL K) (key : K) (h : Nat) :
    (Insert cmp s key h).maxHeight =
      if s.maxHeight < h then h else s.maxHeight := rfl

theorem insert_len (cmp : K → K → Int) (s : SL K) (key : K) (h : Nat) :
    (Insert cmp s key h).nodes.length = s.nodes.length + 1 := by
  rw [insert_nodes_eq, linkLoop_length]
  simp

theorem insPrev_length {cmp : K → K → Int} (hc : IsCmp cmp) {s : SL K}
    (hw : WF cmp s) (k : K) (h : Nat) :
    (insPrev cmp s k h).length = kMaxHeight := by
  unfold insPrev
  split_ifs
  · rw [padPrev_length]
    exact (findGE_spec hc hw k).2.2.2
  · exact (findGE_spec hc hw k).2.2.2

theorem insPrev_getD {cmp : K → K → Int} (hc : IsCmp cmp) {s : SL K}
    (hw : WF cmp s) (k : K) (h : Nat) (L : Nat) (hL : L < kMaxHeight) :
    ∀ cL, IsChain s L (headNext s L) cL →
      (insPrev cmp s k h).getD L 0 = lastLT cmp s k cL := by
  intro cL hch
  have hbase : ∀ (hLlt : L < s.maxHeight),
      (FindGreaterOrEqual cmp s k).2.getD L 0 = lastLT cmp s k cL :=
    fun hLlt => (findGE_spec hc hw k).2.1 L hLlt cL hch
  have hhigh : ∀ (hLge : s.maxHeight ≤ L), lastLT cmp s k cL = 0 := by
    intro hLge
    have hnone := hw.high_null L hLge hL
    rw [hnone] at hch
    rw [fchain_none_eq hch]
    rfl
  unfold insPrev
  by_cases hmh : s.maxHeight < h
  · rw [if_pos hmh, padPrev_getD]
    by_cases hLa : s.maxHeight ≤ L ∧ L < s.maxHeight + (h - s.maxHeight)
    · rw [if_pos hLa, hhigh hLa.1]
    · rw [if_neg hLa]
      by_cases hLb : L < s.maxHeight
      · exact hbase hLb
      · rw [(findGE_spec hc hw k).2.2.1 L (by omega), hhigh (by omega)]
  · rw [if_neg hmh]
    by_cases hLb : L < s.maxHeight
    · exact hbase hLb
    · rw [(findGE_spec hc hw k).2.2.1 L (by omega), hhigh (by omega)]

theorem takeWhile_mem_pred {p : Nat → Bool} :
    ∀ {l : List Nat} {a : Nat}, a ∈ l.takeWhile p → p a = true := by
  intro l
  induction l with
  | nil => intro a ha; simp at ha
  | cons x xs ihl =>
    intro a ha
    rw [List.takeWhile_cons] at ha
    by_cases hpx : p x
    · rw [if_pos hpx] at ha
      rcases List.mem_cons.mp ha with rfl | ha2
      · exact hpx
      · exact ihl ha2
    · rw [if_neg hpx] at ha
      simp at ha

theorem lastLT_mem (cmp : K → K → Int) (s : SL K) (k : K) (cL : List Nat) :
    lastLT cmp s k cL = 0 ∨
      (lastLT cmp s k cL ∈ cL ∧ ltNodeB cmp s k (lastLT cmp s k cL) = true) := by
  unfold lastLT
  cases hgl : (cL.takeWhile (ltNodeB cmp s k)).getLast? with
  | none => left; rfl
  | some y =>
    right
    have hy_tw : y ∈ cL.takeWhile (ltNodeB cmp s k) :=
      List.mem_of_getLast?_eq_some hgl
    exact ⟨List.takeWhile_subset _ hy_tw, takeWhile_mem_pred hy_tw⟩

theorem head_height_12 {cmp : K → K → Int} {s : SL K} (hw : WF cmp s) :
    heightInNodes s.nodes 0 = kMaxHeight := by
  obtain ⟨hd, hhd, hlen⟩ := hw.head_ex
  unfold heightInNodes
  rw [hhd]
  exact hlen

/-- Every slot of the prev array Insert links at is a valid node with
enough height, and is either the head or a chain node whose key is below
k. -/
theorem insPrev_slot_ok {cmp : K → K → Int} (hc : IsCmp cmp) {s : SL K}
    (hw : WF cmp s) (k : K) (h : Nat) (hh2 : h ≤ kMaxHeight) :
    ∀ i, i < h →
      (insPrev cmp s k h).getD i 0 < s.nodes.length ∧
      i < heightInNodes s.nodes ((insPrev cmp s k h).getD i 0) := by
  intro i hi
  obtain ⟨ci, hci, hsorti, hchari⟩ := hw.chains i (by omega)
  rw [insPrev_getD hc hw k h i (by omega) ci hci]
  rcases lastLT_mem cmp s k ci with h0 | ⟨hmem, _⟩
  · rw [h0]
    refine ⟨head_lt_len hw, ?_⟩
    rw [head_height_12 hw]
    omega
  · have hchar := (hchari _).mp hmem
    refine ⟨hchar.2.1, ?_⟩
    rw [← heightOf_eq]
    omega

theorem insert_next_eq {cmp : K → K → Int} (hc : IsCmp cmp) {s : SL K}
    (hw : WF cmp s) (k : K) (h : Nat) (hh2 : h ≤ kMaxHeight) (j L' : Nat) :
    nextPtr (Insert cmp s k h) j L' =
      if L' < h ∧ j = (insPrev cmp s k h).getD L' 0 then
        some s.nodes.length
      else nextInNodes (s.nodes ++ [⟨k, insNexts cmp s k h⟩]) j L' := by
  have hb : ∀ i, i < h →
      (insPrev cmp s k h).getD i 0 <
        (s.nodes ++ [(⟨k, insNexts cmp s k h⟩ : Node K)]).length ∧
      i < heightInNodes (s.nodes ++ [⟨k, insNexts cmp s k h⟩])
        ((insPrev cmp s k h).getD i 0) := by
    intro i hi
    obtain ⟨h1, h2⟩ := insPrev_slot_ok hc hw k h hh2 i hi
    constructor
    · simp only [List.length_append, List.length_cons, List.length_nil]
      omega
    · have : heightInNodes (s.nodes ++ [(⟨k, insNexts cmp s k h⟩ : Node K)])
          ((insPrev cmp s k h).getD i 0) =
          heightInNodes s.nodes ((insPrev cmp s k h).getD i 0) := by
        unfold heightInNodes
        rw [List.getElem?_append_left h1]
      omega
  have := linkLoop_next (insPrev cmp s k h) s.nodes.length h
    (s.nodes ++ [⟨k, insNexts cmp s k h⟩]) hb j L'
  rw [nextPtr, insert_nodes_eq]
  exact this

theorem insert_height_eq (cmp : K → K → Int) (s : SL K) (k : K) (h : Nat)
    (j : Nat) :
    heightOf (Insert cmp s k h) j =
      if j < s.nodes.length then heightOf s j
      else if j = s.nodes.length then h else 0 := by
  rw [heightOf_eq, insert_nodes_eq, linkLoop_height]
  by_cases hj : j < s.nodes.length
  · rw [if_pos hj]
    unfold heightInNodes
    rw [List.getElem?_append_left hj]
    rfl
  · rw [if_neg hj]
    by_cases hj2 : j = s.nodes.length
    · rw [if_pos hj2, hj2]
      unfold heightInNodes
      rw [List.getElem?_append_right (by omega)]
      simp [insNexts]
    · rw [if_neg hj2]
      unfold heightInNodes
      rw [List.getElem?_eq_none (by simp; omega)]

theorem insert_keyAt (cmp : K → K → Int) (s : SL K) (k : K) (h : Nat)
    (j : Nat) :
    keyAtN (Insert cmp s k h).nodes j =
      if j = s.nodes.length then some k else keyAtN s.nodes j := by
  rw [insert_nodes_eq, linkLoop_keyAt]
  by_cases hj : j = s.nodes.length
  · rw [if_pos hj, hj]
    unfold keyAtN
    rw [List.getElem?_append_right (by omega)]
    simp
  · rw [if_neg hj]
    unfold keyAtN
    by_cases hj2 : j < s.nodes.length
    · rw [List.getElem?_append_left hj2]
    · rw [List.getElem?_eq_none (by simp; omega),
        List.getElem?_eq_none (by omega)]

theorem nodeKeyLt_iff_keyAt {cmp : K → K → Int} {s : SL K} {i j : Nat} :
    nodeKeyLt cmp s i j ↔
      ∃ a b, keyAtN s.nodes i = some a ∧ keyAtN s.nodes j = some b ∧
        cmp a b < 0 := by
  unfold nodeKeyLt keyAtN
  constructor
  · rintro ⟨ni, nj, hni, hnj, hlt⟩
    exact ⟨ni.key, nj.key, by rw [hni]; rfl, by rw [hnj]; rfl, hlt⟩
  · rintro ⟨a, b, ha, hb, hlt⟩
    cases hni : s.nodes[i]? with
    | none => rw [hni] at ha; simp at ha
    | some ni =>
      cases hnj : s.nodes[j]? with
      | none => rw [hnj] at hb; simp at hb
      | some nj =>
        rw [hni] at ha
        rw [hnj] at hb
        simp only [Option.map_some'] at ha hb
        injection ha with ha
        injection hb with hb
        exact ⟨ni, nj, rfl, rfl, by rw [ha, hb]; exact hlt⟩

/-- Every level's chain after Insert: at the levels the new node links
into, the old chain with the new node spliced between the nodes below k
and the nodes at or above k; at every other level, the old chain
untouched. -/
theorem insert_chains {cmp : K → K → Int} (hc : IsCmp cmp) {s : SL K}
    (hw : WF cmp s) (k : K) (h : Nat) (hh1 : 1 ≤ h) (hh2 : h ≤ kMaxHeight)
    (hfresh : ∀ i n, 1 ≤ i → s.nodes[i]? = some n → cmp k n.key ≠ 0) :
    ∀ L, L < kMaxHeight →
      ∃ c', IsChain (Insert cmp s k h) L (headNext (Insert cmp s k h) L) c' ∧
        chainSorted cmp (Insert cmp s k h) c' ∧
        (∀ i, i ∈ c' ↔ 1 ≤ i ∧ i < (Insert cmp s k h).nodes.length ∧
          L < heightOf (Insert cmp s k h) i) := by
  intro L hL12
  obtain ⟨cL, hchL, hsortL, hcharL⟩ := hw.chains L hL12
  have hlen0 : 0 < s.nodes.length := head_lt_len hw
  have hlen' := insert_len cmp s k h
  have hnext' := insert_next_eq hc hw k h hh2
  have hA : ∀ j L2, j < s.nodes.length →
      nextInNodes (s.nodes ++ [⟨k, insNexts cmp s k h⟩]) j L2 =
        nextPtr s j L2 := by
    intro j L2 hj
    show nextInNodes (s.nodes ++ [⟨k, insNexts cmp s k h⟩]) j L2 =
      nextInNodes s.nodes j L2
    unfold nextInNodes
    rw [List.getElem?_append_left hj]
  have hB : ∀ L2, nextInNodes (s.nodes ++ [⟨k, insNexts cmp s k h⟩])
      s.nodes.length L2 = (insNexts cmp s k h).getD L2 none := by
    intro L2
    unfold nextInNodes
    rw [List.getElem?_append_right (le_refl _)]
    simp
  have hC : ∀ L2, L2 < h → (insNexts cmp s k h).getD L2 none =
      nextPtr s ((insPrev cmp s k h).getD L2 0) L2 := by
    intro L2 hL2
    unfold insNexts
    rw [range_map_getD hL2]
  have hlt_transport : ∀ e1 e2, e1 < s.nodes.length → e2 < s.nodes.length →
      nodeKeyLt cmp s e1 e2 → nodeKeyLt cmp (Insert cmp s k h) e1 e2 := by
    intro e1 e2 h1 h2 hlt
    rw [nodeKeyLt_iff_keyAt] at hlt ⊢
    obtain ⟨a, b, ha, hb, hab⟩ := hlt
    refine ⟨a, b, ?_, ?_, hab⟩
    · rw [insert_keyAt, if_neg (by omega)]
      exact ha
    · rw [insert_keyAt, if_neg (by omega)]
      exact hb
  by_cases hLh : L < h
  · -- splice level
    have hprL_eq : (insPrev cmp s k h).getD L 0 = lastLT cmp s k cL :=
      insPrev_getD hc hw k h L hL12 cL hchL
    have hlastP : lastLT cmp s k cL =
        ((cL.takeWhile (ltNodeB cmp s k)).getLast?).getD 0 := rfl
    set P := cL.takeWhile (ltNodeB cmp s k) with hPdef
    set Q := cL.dropWhile (ltNodeB cmp s k) with hQdef
    have hPQ : P ++ Q = cL := by
      rw [hPdef, hQdef]
      exact List.takeWhile_append_dropWhile _ _
    have hPlt : ∀ e ∈ P, ltNodeB cmp s k e = true := by
      intro e he
      rw [hPdef] at he
      exact takeWhile_mem_pred he
    have hQhead : ∀ j rest, Q = j :: rest → ltNodeB cmp s k j = false := by
      intro j rest hq
      rw [hQdef] at hq
      exact dropWhile_head_false hq
    have hprP : (insPrev cmp s k h).getD L 0 = (P.getLast?).getD 0 := by
      rw [hprL_eq, hlastP]
    have hchPQ : IsChain s L (headNext s L) (P ++ Q) := by
      rw [hPQ]
      exact hchL
    obtain ⟨q, hsegP, hchQ⟩ := fchain_split hchPQ
    have hnodup : (P ++ Q).Nodup := by
      rw [hPQ]
      exact chainSorted_nodup hc hsortL
    have hsortPQ : chainSorted cmp s (P ++ Q) := by
      rw [hPQ]
      exact hsortL
    have hmem : ∀ e ∈ P ++ Q, 1 ≤ e ∧ e < s.nodes.length ∧ L < heightOf s e := by
      intro e he
      rw [hPQ] at he
      exact (hcharL e).mp he
    have hprlen : (insPrev cmp s k h).getD L 0 < s.nodes.length :=
      (insPrev_slot_ok hc hw k h hh2 L hLh).1
    -- the stored forward pointer of the new node at this level is the old
    -- pointer out of the splice point
    have hq_eq : nextPtr s ((insPrev cmp s k h).getD L 0) L = q := by
      rcases List.eq_nil_or_concat P with hPnil | ⟨A, y, hPy⟩
      · rw [hPnil] at hsegP
        rw [fseg_nil_inv hsegP, hprP, hPnil]
        rfl
      · rw [List.concat_eq_append] at hPy
        obtain ⟨hq2, hyb⟩ := fseg_last (by rw [← hPy]; exact hsegP)
        rw [hprP, hPy, List.getLast?_concat]
        exact hq2.symm
    have hprne_Q : ∀ j ∈ Q, j ≠ (insPrev cmp s k h).getD L 0 := by
      intro j hj
      rcases List.eq_nil_or_concat P with hPnil | ⟨A, y, hPy⟩
      · rw [hprP, hPnil]
        have := (hmem j (List.mem_append.mpr (Or.inr hj))).1
        simp
        omega
      · rw [List.concat_eq_append] at hPy
        rw [hprP, hPy, List.getLast?_concat]
        have hyP : y ∈ P := by rw [hPy]; simp
        obtain ⟨_, _, hdisj⟩ := List.nodup_append.mp hnodup
        intro hjy
        simp only [Option.getD_some] at hjy
        exact hdisj (hjy ▸ hyP) hj
    have hf'_old : ∀ j, j < s.nodes.length →
        j ≠ (insPrev cmp s k h).getD L 0 →
        nextPtr (Insert cmp s k h) j L = nextPtr s j L := by
      intro j hj hne
      rw [hnext' j L, if_neg (fun hcon => hne hcon.2)]
      exact hA j L hj
    have hf'_pr : nextPtr (Insert cmp s k h) ((insPrev cmp s k h).getD L 0) L =
        some s.nodes.length := by
      rw [hnext' _ L, if_pos ⟨hLh, rfl⟩]
    have hf'_new : nextPtr (Insert cmp s k h) s.nodes.length L = q := by
      rw [hnext' _ L, if_neg (fun hcon => by omega)]
      rw [hB L, hC L hLh, hq_eq]
    -- segment from the head pointer through P to the new node
    have hseg' : FSeg (Insert cmp s k h).nodes.length
        (fun i => nextPtr (Insert cmp s k h) i L)
        (nextPtr (Insert cmp s k h) 0 L) P (some s.nodes.length) := by
      rcases List.eq_nil_or_concat P with hPnil | ⟨A, y, hPy⟩
      · have hpr0 : (insPrev cmp s k h).getD L 0 = 0 := by
          rw [hprP, hPnil]
          rfl
        have hstep : nextPtr (Insert cmp s k h) 0 L = some s.nodes.length := by
          have := hf'_pr
          rw [hpr0] at this
          exact this
        rw [hPnil, hstep]
        exact FSeg.nil _
      · rw [List.concat_eq_append] at hPy
        have hpry : (insPrev cmp s k h).getD L 0 = y := by
          rw [hprP, hPy, List.getLast?_concat]
          rfl
        have hy_mem : y ∈ P := by rw [hPy]; simp
        have hy1 : 1 ≤ y := (hmem y (List.mem_append.mpr (Or.inl hy_mem))).1
        have hhead' : nextPtr (Insert cmp s k h) 0 L = headNext s L :=
          hf'_old 0 hlen0 (by omega)
        obtain ⟨q2, hsegA, hsegY⟩ := fseg_split (by rw [← hPy]; exact hsegP)
        obtain ⟨hq2, hyb, _⟩ := fseg_cons_inv hsegY
        have hnodupP : P.Nodup := (List.nodup_append.mp hnodup).1
        have hynA : y ∉ A := by
          rw [hPy] at hnodupP
          obtain ⟨_, _, hdisj2⟩ := List.nodup_append.mp hnodupP
          intro hyA
          exact hdisj2 hyA (List.mem_singleton.mpr rfl)
        have hsegA' : FSeg (Insert cmp s k h).nodes.length
            (fun i => nextPtr (Insert cmp s k h) i L)
            (headNext s L) A q2 := by
          apply fseg_congr (by omega) ?_ hsegA
          intro j hj
          have hjP : j ∈ P := by rw [hPy]; exact List.mem_append.mpr (Or.inl hj)
          have hjlen := (hmem j (List.mem_append.mpr (Or.inl hjP))).2.1
          exact hf'_old j hjlen (by rw [hpry]; intro hjy; exact hynA (hjy ▸ hj))
        have hfy : nextPtr (Insert cmp s k h) y L = some s.nodes.length := by
          have := hf'_pr
          rw [hpry] at this
          exact this
        have hy_step : FSeg (Insert cmp s k h).nodes.length
            (fun i => nextPtr (Insert cmp s k h) i L)
            (some y) [y] (some s.nodes.length) := by
          refine FSeg.cons y [] _ (by omega) ?_
          show FSeg _ _ (nextPtr (Insert cmp s k h) y L) [] (some s.nodes.length)
          rw [hfy]
          exact FSeg.nil _
        rw [hPy, hhead']
        exact fseg_append hsegA' (hq2 ▸ hy_step)
    have hchQ' : FChain (Insert cmp s k h).nodes.length
        (fun i => nextPtr (Insert cmp s k h) i L) q Q := by
      apply fchain_congr (by omega) ?_ hchQ
      intro j hj
      have hjlen := (hmem j (List.mem_append.mpr (Or.inr hj))).2.1
      exact hf'_old j hjlen (hprne_Q j hj)
    -- k sits strictly between the keys of P and the keys of Q
    have hknew : ∀ e ∈ Q, ∃ ne2, s.nodes[e]? = some ne2 ∧ cmp k ne2.key < 0 := by
      intro e he
      cases hQc : Q with
      | nil =>
        rw [hQc] at he
        cases he
      | cons j0 rest =>
        have hj0f : ltNodeB cmp s k j0 = false := hQhead j0 rest hQc
        have hj0Q : j0 ∈ Q := by rw [hQc]; exact List.mem_cons_self j0 rest
        obtain ⟨hj01, hj0len, _⟩ := hmem j0 (List.mem_append.mpr (Or.inr hj0Q))
        obtain ⟨nj0, hnj0⟩ := getElem?_some_of_lt hj0len
        have hj0ge : ¬ cmp nj0.key k < 0 := by
          intro hlt2
          have hx : ltNodeB cmp s k j0 = true :=
            ltNodeB_iff.mpr ⟨nj0, hnj0, hlt2⟩
          rw [hx] at hj0f
          exact absurd hj0f (by simp)
        have hne2 : cmp nj0.key k ≠ 0 := fun h0 =>
          hfresh j0 nj0 hj01 hnj0 (hc.eq_symm h0)
        have hkj0 : cmp k nj0.key < 0 := hc.pos_of_not_neg_of_ne hj0ge hne2
        rw [hQc] at he
        rcases List.mem_cons.mp he with rfl | herest
        · exact ⟨nj0, hnj0, hkj0⟩
        · have hQsort : chainSorted cmp s Q :=
            (List.pairwise_append.mp hsortPQ).2.1
          rw [hQc] at hQsort
          have hj0e : nodeKeyLt cmp s j0 e :=
            (List.pairwise_cons.mp hQsort).1 e herest
          obtain ⟨nj0b, ne2, hnj0b, hne2b, hlt3⟩ := hj0e
          rw [hnj0] at hnj0b
          injection hnj0b with hnj0b
          subst hnj0b
          exact ⟨ne2, hne2b, hc.lt_trans _ _ _ hkj0 hlt3⟩
    have hkeynew : keyAtN (Insert cmp s k h).nodes s.nodes.length = some k := by
      rw [insert_keyAt, if_pos rfl]
    have hkeyold : ∀ j, j < s.nodes.length →
        keyAtN (Insert cmp s k h).nodes j = keyAtN s.nodes j := by
      intro j hj
      rw [insert_keyAt, if_neg (by omega)]
    refine ⟨P ++ s.nodes.length :: Q, ?_, ?_, ?_⟩
    · -- the chain
      show FChain (Insert cmp s k h).nodes.length
        (fun i => nextPtr (Insert cmp s k h) i L)
        (nextPtr (Insert cmp s k h) 0 L) (P ++ s.nodes.length :: Q)
      refine fseg_none_fchain (fseg_append hseg' ?_) rfl
      refine FSeg.cons s.nodes.length Q none (by omega) ?_
      show FSeg _ _ (nextPtr (Insert cmp s k h) s.nodes.length L) Q none
      rw [hf'_new]
      exact fchain_fseg_none hchQ'
    · -- sortedness
      show List.Pairwise (nodeKeyLt cmp (Insert cmp s k h))
        (P ++ s.nodes.length :: Q)
      rw [List.pairwise_append]
      obtain ⟨hsP, hsQ, hsX⟩ := List.pairwise_append.mp hsortPQ
      refine ⟨?_, ?_, ?_⟩
      · refine hsP.imp_of_mem ?_
        intro a b ha hb hr
        exact hlt_transport a b
          (hmem a (List.mem_append.mpr (Or.inl ha))).2.1
          (hmem b (List.mem_append.mpr (Or.inl hb))).2.1 hr
      · rw [List.pairwise_cons]
        constructor
        · intro e he
          obtain ⟨ne2, hne2, hke⟩ := hknew e he
          have helen := (hmem e (List.mem_append.mpr (Or.inr he))).2.1
          rw [nodeKeyLt_iff_keyAt]
          refine ⟨k, ne2.key, hkeynew, ?_, hke⟩
          rw [hkeyold e helen]
          unfold keyAtN
          rw [hne2]
          rfl
        · refine hsQ.imp_of_mem ?_
          intro a b ha hb hr
          exact hlt_transport a b
            (hmem a (List.mem_append.mpr (Or.inr ha))).2.1
            (hmem b (List.mem_append.mpr (Or.inr hb))).2.1 hr
      · intro a ha b hb
        rcases List.mem_cons.mp hb with rfl | hbQ
        · -- a precedes the new node
          have halt := hPlt a ha
          rw [ltNodeB_iff] at halt
          obtain ⟨na, hna, haltk⟩ := halt
          have halen := (hmem a (List.mem_append.mpr (Or.inl ha))).2.1
          rw [nodeKeyLt_iff_keyAt]
          refine ⟨na.key, k, ?_, hkeynew, haltk⟩
          rw [hkeyold a halen]
          unfold keyAtN
          rw [hna]
          rfl
        · exact hlt_transport a b
            (hmem a (List.mem_append.mpr (Or.inl ha))).2.1
            (hmem b (List.mem_append.mpr (Or.inr hbQ))).2.1
            (hsX a ha b hbQ)
    · -- characterization
      intro i
      constructor
      · intro hi
        rcases List.mem_append.mp hi with hiP | hirest
        · obtain ⟨h1, h2, h3⟩ := hmem i (List.mem_append.mpr (Or.inl hiP))
          refine ⟨h1, by omega, ?_⟩
          rw [insert_height_eq, if_pos h2]
          exact h3
        · rcases List.mem_cons.mp hirest with rfl | hiQ
          · refine ⟨by omega, by omega, ?_⟩
            rw [insert_height_eq, if_neg (by omega), if_pos rfl]
            exact hLh
          · obtain ⟨h1, h2, h3⟩ := hmem i (List.mem_append.mpr (Or.inr hiQ))
            refine ⟨h1, by omega, ?_⟩
            rw [insert_height_eq, if_pos h2]
            exact h3
      · rintro ⟨hi1, hi2, hi3⟩
        by_cases hie : i = s.nodes.length
        · subst hie
          exact List.mem_append.mpr (Or.inr (List.mem_cons_self _ _))
        · have hilen : i < s.nodes.length := by omega
          rw [insert_height_eq, if_pos hilen] at hi3
          have hicL : i ∈ cL := (hcharL i).mpr ⟨hi1, hilen, hi3⟩
          rw [← hPQ] at hicL
          rcases List.mem_append.mp hicL with hiP | hiQ
          · exact List.mem_append.mpr (Or.inl hiP)
          · exact List.mem_append.mpr (Or.inr (List.mem_cons_of_mem _ hiQ))
  · -- untouched level
    have hmemL : ∀ e ∈ cL, 1 ≤ e ∧ e < s.nodes.length ∧ L < heightOf s e :=
      fun e he => (hcharL e).mp he
    refine ⟨cL, ?_, ?_, ?_⟩
    · show FChain (Insert cmp s k h).nodes.length
        (fun i => nextPtr (Insert cmp s k h) i L)
        (nextPtr (Insert cmp s k h) 0 L) cL
      have hhead : nextPtr (Insert cmp s k h) 0 L = headNext s L := by
        rw [hnext' 0 L, if_neg (fun hcon => hLh hcon.1)]
        exact hA 0 L hlen0
      rw [hhead]
      apply fchain_congr (by omega) ?_ hchL
      intro j hj
      rw [hnext' j L, if_neg (fun hcon => hLh hcon.1)]
      exact hA j L (hmemL j hj).2.1
    · refine hsortL.imp_of_mem ?_
      intro a b ha hb hr
      exact hlt_transport a b (hmemL a ha).2.1 (hmemL b hb).2.1 hr
    · intro i
      constructor
      · intro hi
        obtain ⟨h1, h2, h3⟩ := hmemL i hi
        refine ⟨h1, by omega, ?_⟩
        rw [insert_height_eq, if_pos h2]
        exact h3
      · rintro ⟨hi1, hi2, hi3⟩
        by_cases hie : i = s.nodes.length
        · exfalso
          subst hie
          rw [insert_height_eq, if_neg (by omega), if_pos rfl] at hi3
          omega
        · have hilen : i < s.nodes.length := by omega
          rw [insert_height_eq, if_pos hilen] at hi3
          exact (hcharL i).mpr ⟨hi1, hilen, hi3⟩

/-- Insert preserves the well-formedness invariant, for any sampled height
in [1, kMaxHeight] and any key not comparator-equal to one already in the
list (Insert's documented REQUIRES). -/
theorem Insert_WF {cmp : K → K → Int} (hc : IsCmp cmp) {s : SL K}
    (hw : WF cmp s) (k : K) (h : Nat) (hh1 : 1 ≤ h) (hh2 : h ≤ kMaxHeight)
    (hfresh : ∀ i n, 1 ≤ i → s.nodes[i]? = some n → cmp k n.key ≠ 0) :
    WF cmp (Insert cmp s k h) := by
  have hlen' := insert_len cmp s k h
  have hlen0 := head_lt_len hw
  refine ⟨?_, ?_, ?_, ?_, ?_, ?_, ?_⟩
  · have hh0 := insert_height_eq cmp s k h 0
    rw [if_pos hlen0] at hh0
    have h12 : heightOf (Insert cmp s k h) 0 = kMaxHeight := by
      rw [hh0, heightOf_eq, head_height_12 hw]
    obtain ⟨hd', hhd'⟩ : ∃ hd', (Insert cmp s k h).nodes[0]? = some hd' :=
      getElem?_some_of_lt (by omega)
    refine ⟨hd', hhd', ?_⟩
    have h2 : heightInNodes (Insert cmp s k h).nodes 0 = hd'.next.length := by
      unfold heightInNodes
      rw [hhd']
    rw [heightOf_eq] at h12
    omega
  · rw [insert_mh_eq]
    have := hw.mh_pos
    split_ifs <;> omega
  · rw [insert_mh_eq]
    have := hw.mh_le
    split_ifs <;> omega
  · intro i hi1 hi2
    rw [insert_height_eq]
    rw [hlen'] at hi2
    by_cases hie : i < s.nodes.length
    · rw [if_pos hie]
      exact hw.height_pos i hi1 hie
    · rw [if_neg hie, if_pos (by omega)]
      omega
  · intro i hi1 hi2
    rw [insert_height_eq]
    rw [hlen'] at hi2
    by_cases hie : i < s.nodes.length
    · rw [if_pos hie]
      exact hw.height_le i hi1 hie
    · rw [if_neg hie, if_pos (by omega)]
      omega
  · intro L hL1 hL2
    rw [insert_mh_eq] at hL1
    have hLh : h ≤ L := by split_ifs at hL1 <;> omega
    have hLmh : s.maxHeight ≤ L := by split_ifs at hL1 <;> omega
    show nextPtr (Insert cmp s k h) 0 L = none
    rw [insert_next_eq hc hw k h hh2 0 L, if_neg (by omega)]
    have hx : nextInNodes (s.nodes ++ [⟨k, insNexts cmp s k h⟩]) 0 L =
        nextPtr s 0 L := by
      show nextInNodes (s.nodes ++ [⟨k, insNexts cmp s k h⟩]) 0 L =
        nextInNodes s.nodes 0 L
      unfold nextInNodes
      rw [List.getElem?_append_left hlen0]
    rw [hx]
    exact hw.high_null L hLmh hL2
  · exact insert_chains hc hw k h hh1 hh2 hfresh

theorem slNew_next (dummy : K) (j L : Nat) :
    nextPtr (slNew dummy) j L = none := by
  unfold nextPtr nextInNodes slNew
  match j with
  | 0 =>
    simp only [List.getElem?_cons_zero]
    rw [List.getD_eq_getElem?_getD, List.getElem?_replicate]
    split_ifs <;> rfl
  | j + 1 => simp

/-- The fresh skip list built by the constructor is well-formed. -/
theorem WF_slNew (cmp : K → K → Int) (dummy : K) : WF cmp (slNew dummy) := by
  refine ⟨⟨⟨dummy, List.replicate kMaxHeight none⟩, rfl, by simp⟩,
    le_refl 1, by show (1 : Nat) ≤ kMaxHeight; unfold kMaxHeight; omega,
    ?_, ?_, ?_, ?_⟩
  · intro i hi1 hi2
    simp [slNew] at hi2
    omega
  · intro i hi1 hi2
    simp [slNew] at hi2
    omega
  · intro L hL1 hL2
    exact slNew_next dummy 0 L
  · intro L hL
    refine ⟨[], ?_, List.Pairwise.nil, ?_⟩
    · show FChain _ _ (nextPtr (slNew dummy) 0 L) []
      rw [slNew_next]
      exact FChain.nil
    · intro i
      simp only [List.not_mem_nil, false_iff]
      rintro ⟨hi1, hi2, _⟩
      simp [slNew] at hi2
      omega

/-- Inserting appends exactly the new key to the key sequence of the node
heap. -/
theorem insert_keys_map (cmp : K → K → Int) (s : SL K) (k : K) (h : Nat) :
    (Insert cmp s k h).nodes.map (fun n => n.key) =
      s.nodes.map (fun n => n.key) ++ [k] := by
  apply List.ext_getElem?
  intro j
  rw [List.getElem?_map]
  have hk := insert_keyAt cmp s k h j
  unfold keyAtN at hk
  rw [hk]
  by_cases hj : j < s.nodes.length
  · rw [if_neg (by omega), List.getElem?_append_left (by simpa using hj),
      List.getElem?_map]
  · by_cases hj2 : j = s.nodes.length
    · rw [if_pos hj2, List.getElem?_append_right (by simp; omega), hj2]
      simp
    · rw [if_neg hj2, List.getElem?_eq_none (by omega),
        List.getElem?_eq_none (by simp; omega)]
      rfl

/-- The state built by a fold of Inserts over an initial well-formed state:
well-formedness is preserved and the key sequence is extended by the
inserted keys in order. -/
theorem foldl_inserts_general {cmp : K → K → Int} (hc : IsCmp cmp) :
    ∀ (ops : List (K × Nat)) (s : SL K), WF cmp s →
      (∀ p ∈ ops, 1 ≤ p.2 ∧ p.2 ≤ kMaxHeight) →
      (∀ p ∈ ops, ∀ i n, 1 ≤ i → s.nodes[i]? = some n → cmp p.1 n.key ≠ 0) →
      ops.Pairwise (fun a b => cmp a.1 b.1 ≠ 0) →
      WF cmp (ops.foldl (fun t p => Insert cmp t p.1 p.2) s) ∧
      (ops.foldl (fun t p => Insert cmp t p.1 p.2) s).nodes.map
          (fun n => n.key) =
        s.nodes.map (fun n => n.key) ++ ops.map (fun p => p.1) := by
  intro ops
  induction ops with
  | nil =>
    intro s hws _ _ _
    exact ⟨hws, by simp⟩
  | cons p ops ih =>
    intro s hws hh hfresh hdist
    simp only [List.foldl_cons]
    have hp := hh p (List.mem_cons_self p ops)
    have hwf1 : WF cmp (Insert cmp s p.1 p.2) :=
      Insert_WF hc hws p.1 p.2 hp.1 hp.2
        (fun i n hi hn => hfresh p (List.mem_cons_self p ops) i n hi hn)
    have hkeys1 := insert_keys_map cmp s p.1 p.2
    have hfresh2 : ∀ q ∈ ops, ∀ i n, 1 ≤ i →
        (Insert cmp s p.1 p.2).nodes[i]? = some n → cmp q.1 n.key ≠ 0 := by
      intro q hq i n hi hn
      have hk := insert_keyAt cmp s p.1 p.2 i
      unfold keyAtN at hk
      rw [hn] at hk
      by_cases hie : i = s.nodes.length
      · rw [if_pos hie] at hk
        simp only [Option.map_some'] at hk
        injection hk with hk
        rw [hk]
        exact fun h0 => (List.pairwise_cons.mp hdist).1 q hq (hc.eq_symm h0)
      · rw [if_neg hie] at hk
        cases hn0 : s.nodes[i]? with
        | none =>
          rw [hn0] at hk
          simp at hk
        | some n0 =>
          rw [hn0] at hk
          simp only [Option.map_some'] at hk
          injection hk with hk
          rw [hk]
          exact hfresh q (List.mem_cons_of_mem p hq) i n0 hi hn0
    obtain ⟨hwf2, hkeys2⟩ := ih (Insert cmp s p.1 p.2) hwf1
      (fun q hq => hh q (List.mem_cons_of_mem p hq)) hfresh2
      (List.pairwise_cons.mp hdist).2
    refine ⟨hwf2, ?_⟩
    rw [hkeys2, hkeys1]
    simp

theorem foldInserts_spec {cmp : K → K → Int} (hc : IsCmp cmp) (dummy : K)
    (ops : List (K × Nat))
    (hh : ∀ p ∈ ops, 1 ≤ p.2 ∧ p.2 ≤ kMaxHeight)
    (hdist : ops.Pairwise (fun a b => cmp a.1 b.1 ≠ 0)) :
    WF cmp (foldInserts cmp dummy ops) ∧
    (foldInserts cmp dummy ops).nodes.map (fun n => n.key) =
      dummy :: ops.map (fun p => p.1) := by
  have hfresh0 : ∀ p ∈ ops, ∀ i n, 1 ≤ i →
      (slNew dummy).nodes[i]? = some n → cmp p.1 n.key ≠ 0 := by
    intro p hp i n hi hn
    unfold slNew at hn
    match i, hi with
    | i + 1, _ => simp at hn
  obtain ⟨h1, h2⟩ := foldl_inserts_general hc ops (slNew dummy)
    (WF_slNew cmp dummy) hh hfresh0 hdist
  refine ⟨h1, ?_⟩
  show (ops.foldl (fun t p => Insert cmp t p.1 p.2) (slNew dummy)).nodes.map
    (fun n => n.key) = dummy :: ops.map (fun p => p.1)
  rw [h2]
  rfl

/-- Lifting a predicate on the non-head node keys to the inserted keys. -/
theorem keymap_exists {s : SL K} {dummy : K} {ks : List K}
    (hkeys : s.nodes.map (fun n => n.key) = dummy :: ks) (P : K → Prop) :
    (∃ i n, 1 ≤ i ∧ s.nodes[i]? = some n ∧ P n.key) ↔
      ∃ key ∈ ks, P key := by
  constructor
  · rintro ⟨i, n, hi, hn, hp⟩
    have hmk : (s.nodes.map (fun n => n.key))[i]? = some n.key := by
      rw [List.getElem?_map, hn]
      rfl
    rw [hkeys] at hmk
    match i, hi, hmk with
    | i + 1, _, hmk =>
      simp only [List.getElem?_cons_succ] at hmk
      exact ⟨n.key, List.getElem?_mem hmk, hp⟩
  · rintro ⟨key, hmem, hp⟩
    obtain ⟨m, hm⟩ := List.getElem?_of_mem hmem
    have hmk : (s.nodes.map (fun n => n.key))[m + 1]? = some key := by
      rw [hkeys]
      simpa using hm
    rw [List.getElem?_map] at hmk
    cases hn : s.nodes[m + 1]? with
    | none =>
      rw [hn] at hmk
      simp at hmk
    | some n =>
      rw [hn] at hmk
      simp only [Option.map_some'] at hmk
      injection hmk with hmk
      exact ⟨m + 1, n, by omega, hn, by rw [hmk]; exact hp⟩

/-! ### C1 and C2 -/

/-- C1: for every finite sequence of inserts of pairwise
comparator-distinct keys into a fresh SkipList (heights ranging over every
value RandomHeight can produce), Contains(k) afterwards returns true iff k
is comparator-equal to some inserted key. -/
theorem c1_contains_iff_inserted (K : Type) (cmp : K → K → Int)
    (hc : IsCmp cmp) (dummy : K) (ops : List (K × Nat)) (k : K)
    (hh : ∀ p ∈ ops, 1 ≤ p.2 ∧ p.2 ≤ kMaxHeight)
    (hdist : ops.Pairwise (fun a b => cmp a.1 b.1 ≠ 0)) :
    Contains cmp (foldInserts cmp dummy ops) k = true ↔
      ∃ p ∈ ops, cmp k p.1 = 0 := by
  obtain ⟨hwf, hkeys⟩ := foldInserts_spec hc dummy ops hh hdist
  rw [Contains_iff hc hwf k, keymap_exists hkeys (fun key => cmp k key = 0)]
  constructor
  · rintro ⟨key, hkmem, hp⟩
    obtain ⟨p, hpmem, hpk⟩ := List.mem_map.mp hkmem
    exact ⟨p, hpmem, by rw [hpk]; exact hp⟩
  · rintro ⟨p, hpmem, hp⟩
    exact ⟨p.1, List.mem_map.mpr ⟨p, hpmem, rfl⟩, hp⟩

/-- Witness for C1: after inserting keys 5 and 1, Contains finds 5 and
the iff instantiates. -/
theorem c1_witness :
    Contains natCmp (foldInserts natCmp 0 [(5, 1), (1, 2)]) 5 = true ↔
      ∃ p ∈ [((5 : Nat), (1 : Nat)), (1, 2)], natCmp 5 p.1 = 0 :=
  c1_contains_iff_inserted Nat natCmp natCmp_isCmp 0 [(5, 1), (1, 2)] 5
    (by decide) (by decide)

/-- C2: the per-level strict order is an invariant preserved by every
Insert (first conjunct: well-formedness, whose chains field is exactly the
per-level sorted chains, is preserved), and after any sequence of inserts
of pairwise comparator-distinct keys on a fresh list, every level's
forward-pointer walk from the head, the level-0 walk included, visits the
inserted nodes in strictly ascending comparator order and ends at none
(second conjunct, with the node set pinned down by the membership
characterization and the key sequence equation). -/
theorem c2_per_level_order (K : Type) (cmp : K → K → Int) :
    (IsCmp cmp → ∀ (s : SL K) (k : K) (h : Nat), WF cmp s →
      1 ≤ h → h ≤ kMaxHeight →
      (∀ i n, 1 ≤ i → s.nodes[i]? = some n → cmp k n.key ≠ 0) →
      WF cmp (Insert cmp s k h)) ∧
    (IsCmp cmp → ∀ (dummy : K) (ops : List (K × Nat)),
      (∀ p ∈ ops, 1 ≤ p.2 ∧ p.2 ≤ kMaxHeight) →
      ops.Pairwise (fun a b => cmp a.1 b.1 ≠ 0) →
      (foldInserts cmp dummy ops).nodes.map (fun n => n.key) =
        dummy :: ops.map (fun p => p.1) ∧
      ∀ L, L < kMaxHeight →
        ∃ c, IsChain (foldInserts cmp dummy ops) L
            (headNext (foldInserts cmp dummy ops) L) c ∧
          chainSorted cmp (foldInserts cmp dummy ops) c ∧
          ∀ i, i ∈ c ↔ 1 ≤ i ∧ i < (foldInserts cmp dummy ops).nodes.length ∧
            L < heightOf (foldInserts cmp dummy ops) i) := by
  constructor
  · intro hc s k h hw hh1 hh2 hfresh
    exact Insert_WF hc hw k h hh1 hh2 hfresh
  · intro hc dummy ops hh hdist
    obtain ⟨hwf, hkeys⟩ := foldInserts_spec hc dummy ops hh hdist
    exact ⟨hkeys, hwf.chains⟩

/-- Witness for C2: the level-0 chain of a concrete two-insert list. -/
theorem c2_witness :
    (foldInserts natCmp 0 [(3, 1), (1, 2)]).nodes.map (fun n => n.key) =
      0 :: [(3, 1), (1, 2)].map (fun p : Nat × Nat => p.1) ∧
    ∀ L, L < kMaxHeight →
      ∃ c, IsChain (foldInserts natCmp 0 [(3, 1), (1, 2)]) L
          (headNext (foldInserts natCmp 0 [(3, 1), (1, 2)]) L) c ∧
        chainSorted natCmp (foldInserts natCmp 0 [(3, 1), (1, 2)]) c ∧
        ∀ i, i ∈ c ↔ 1 ≤ i ∧
          i < (foldInserts natCmp 0 [(3, 1), (1, 2)]).nodes.length ∧
          L < heightOf (foldInserts natCmp 0 [(3, 1), (1, 2)]) i :=
  (c2_per_level_order Nat natCmp).2 natCmp_isCmp 0 [(3, 1), (1, 2)]
    (by decide) (by decide)

/-! ### C7: the iterator never rests on the head sentinel -/

theorem chain_mem_lower {cmp : K → K → Int} {s : SL K} (hw : WF cmp s)
    {L1 L2 : Nat} (hL1 : L1 < kMaxHeight) (hL2 : L2 < kMaxHeight)
    (hle : L2 ≤ L1) {x : Nat} {cL1 cL2 : List Nat}
    (h1 : IsChain s L1 (headNext s L1) cL1)
    (h2 : IsChain s L2 (headNext s L2) cL2) (hx : x ∈ cL1) : x ∈ cL2 := by
  obtain ⟨c1b, hch1, _, hchar1⟩ := hw.chains L1 hL1
  obtain ⟨c2b, hch2, _, hchar2⟩ := hw.chains L2 hL2
  rw [fchain_det h2 hch2]
  rw [fchain_det h1 hch1] at hx
  have hb := (hchar1 x).mp hx
  exact (hchar2 x).mpr ⟨hb.1, hb.2.1, by omega⟩

theorem findLTAux_mem {cmp : K → K → Int} (hc : IsCmp cmp) {s : SL K}
    (hw : WF cmp s) (k : K) :
    ∀ fuel x level, level < kMaxHeight →
      (x = 0 ∨ ∃ cL, IsChain s level (headNext s level) cL ∧ x ∈ cL) →
      ∀ c0, IsChain s 0 (headNext s 0) c0 →
        (FindLessThanAux cmp s k fuel x level = 0 ∨
          FindLessThanAux cmp s k fuel x level ∈ c0) := by
  intro fuel
  induction fuel with
  | zero =>
    intro x level hlev hpos c0 hc0
    simp only [FindLessThanAux]
    rcases hpos with rfl | ⟨cL, hch, hx⟩
    · exact Or.inl rfl
    · exact Or.inr (chain_mem_lower hw hlev (by unfold kMaxHeight; omega)
        (by omega) hch hc0 hx)
  | succ fu ih =>
    intro x level hlev hpos c0 hc0
    simp only [FindLessThanAux]
    by_cases hadv : KeyIsAfterNode cmp s k (nextPtr s x level) = true
    · rw [if_pos hadv]
      have hsome : ∃ j, nextPtr s x level = some j := by
        cases hnp : nextPtr s x level with
        | none => rw [hnp] at hadv; simp [KeyIsAfterNode] at hadv
        | some j => exact ⟨j, rfl⟩
      obtain ⟨j, hnp⟩ := hsome
      rw [hnp]
      obtain ⟨cL, hch, hjm⟩ : ∃ cL,
          IsChain s level (headNext s level) cL ∧ j ∈ cL := by
        rcases hpos with rfl | ⟨cL, hch, hx⟩
        · obtain ⟨cL, hch, _, _⟩ := hw.chains level hlev
          have hh : headNext s level = some j := hnp
          rw [hh] at hch
          obtain ⟨cs, hceq, _, _⟩ := fchain_some_inv hch
          refine ⟨cL, by rw [← hh] at hch; exact hch, by rw [hceq]; simp⟩
        · exact ⟨cL, hch, fchain_mem_next hch hx hnp⟩
      exact ih j level hlev (Or.inr ⟨cL, hch, hjm⟩) c0 hc0
    · rw [if_neg hadv]
      by_cases h0 : level = 0
      · rw [if_pos h0]
        rcases hpos with rfl | ⟨cL, hch, hx⟩
        · exact Or.inl rfl
        · subst h0
          rw [fchain_det hc0 hch]
          exact Or.inr hx
      · rw [if_neg h0]
        refine ih x (level - 1) (by omega) ?_ c0 hc0
        rcases hpos with rfl | ⟨cL, hch, hx⟩
        · exact Or.inl rfl
        · obtain ⟨cd, hcd, _, _⟩ := hw.chains (level - 1) (by omega)
          exact Or.inr ⟨cd, hcd,
            chain_mem_lower hw hlev (by omega) (by omega) hch hcd hx⟩

theorem findLastAux_mem {cmp : K → K → Int} {s : SL K} (hw : WF cmp s) :
    ∀ fuel x level, level < kMaxHeight →
      (x = 0 ∨ ∃ cL, IsChain s level (headNext s level) cL ∧ x ∈ cL) →
      ∀ c0, IsChain s 0 (headNext s 0) c0 →
        (FindLastAux s fuel x level = 0 ∨ FindLastAux s fuel x level ∈ c0) := by
  intro fuel
  induction fuel with
  | zero =>
    intro x level hlev hpos c0 hc0
    simp only [FindLastAux]
    rcases hpos with rfl | ⟨cL, hch, hx⟩
    · exact Or.inl rfl
    · exact Or.inr (chain_mem_lower hw hlev (by unfold kMaxHeight; omega)
        (by omega) hch hc0 hx)
  | succ fu ih =>
    intro x level hlev hpos c0 hc0
    simp only [FindLastAux]
    cases hnp : nextPtr s x level with
    | some j =>
      obtain ⟨cL, hch, hjm⟩ : ∃ cL,
          IsChain s level (headNext s level) cL ∧ j ∈ cL := by
        rcases hpos with rfl | ⟨cL, hch, hx⟩
        · obtain ⟨cL, hch, _, _⟩ := hw.chains level hlev
          have hh : headNext s level = some j := hnp
          rw [hh] at hch
          obtain ⟨cs, hceq, _, _⟩ := fchain_some_inv hch
          refine ⟨cL, by rw [← hh] at hch; exact hch, by rw [hceq]; simp⟩
        · exact ⟨cL, hch, fchain_mem_next hch hx hnp⟩
      exact ih j level hlev (Or.inr ⟨cL, hch, hjm⟩) c0 hc0
    | none =>
      by_cases h0 : level = 0
      · rw [if_pos h0]
        rcases hpos with rfl | ⟨cL, hch, hx⟩
        · exact Or.inl rfl
        · subst h0
          rw [fchain_det hc0 hch]
          exact Or.inr hx
      · rw [if_neg h0]
        refine ih x (level - 1) (by omega) ?_ c0 hc0
        rcases hpos with rfl | ⟨cL, hch, hx⟩
        · exact Or.inl rfl
        · obtain ⟨cd, hcd, _, _⟩ := hw.chains (level - 1) (by omega)
          exact Or.inr ⟨cd, hcd,
            chain_mem_lower hw hlev (by omega) (by omega) hch hcd hx⟩

theorem FindLessThan_mem {cmp : K → K → Int} (hc : IsCmp cmp) {s : SL K}
    (hw : WF cmp s) (k : K) {c0 : List Nat}
    (hc0 : IsChain s 0 (headNext s 0) c0) :
    FindLessThan cmp s k = 0 ∨ FindLessThan cmp s k ∈ c0 :=
  findLTAux_mem hc hw k (searchFuel s) 0 (s.maxHeight - 1)
    (by have := hw.mh_le; have := hw.mh_pos; omega) (Or.inl rfl) c0 hc0

theorem FindLast_mem {cmp : K → K → Int} {s : SL K} (hw : WF cmp s)
    {c0 : List Nat} (hc0 : IsChain s 0 (headNext s 0) c0) :
    FindLast s = 0 ∨ FindLast s ∈ c0 :=
  findLastAux_mem hw (searchFuel s) 0 (s.maxHeight - 1)
    (by have := hw.mh_le; have := hw.mh_pos; omega) (Or.inl rfl) c0 hc0

theorem seek_mem {cmp : K → K → Int} (hc : IsCmp cmp) {s : SL K}
    (hw : WF cmp s) (t : K) {c0 : List Nat}
    (hc0 : IsChain s 0 (headNext s 0) c0) :
    (FindGreaterOrEqual cmp s t).1 = none ∨
      ∃ j, (FindGreaterOrEqual cmp s t).1 = some j ∧ j ∈ c0 := by
  rw [(findGE_spec hc hw t).1 c0 hc0]
  cases hfg : firstGE cmp s t c0 with
  | none => exact Or.inl rfl
  | some j => exact Or.inr ⟨j, rfl, List.mem_of_find?_eq_some hfg⟩

/-- Every reachable iterator's node is null or a member of the level-0
chain (hence never the head sentinel). -/
theorem reach_good [Inhabited K] {cmp : K → K → Int} (hc : IsCmp cmp)
    {s : SL K} (hw : WF cmp s) {it : Iter} (hr : Reach cmp s it)
    {c0 : List Nat} (hc0 : IsChain s 0 (headNext s 0) c0) :
    it.node = none ∨ ∃ j, it.node = some j ∧ j ∈ c0 := by
  induction hr with
  | init => exact Or.inl rfl
  | seek t it2 hr2 ih =>
    rcases seek_mem hc hw t hc0 with hn | ⟨j, hj, hjm⟩
    · exact Or.inl hn
    · exact Or.inr ⟨j, hj, hjm⟩
  | first it2 hr2 ih =>
    cases hc0' : c0 with
    | nil =>
      left
      exact fchain_nil_inv (hc0' ▸ hc0)
    | cons j rest =>
      right
      exact ⟨j, (fchain_cons_inv (hc0' ▸ hc0)).1, by simp⟩
  | last it2 hr2 ih =>
    by_cases h0 : FindLast s = 0
    · left
      show (if FindLast s = 0 then none else some (FindLast s)) = none
      rw [if_pos h0]
    · right
      rcases FindLast_mem hw hc0 with h0b | hmem
      · exact absurd h0b h0
      · refine ⟨FindLast s, ?_, hmem⟩
        show (if FindLast s = 0 then none else some (FindLast s)) = _
        rw [if_neg h0]
  | next it2 hr2 hv ih =>
    rcases ih with hnone | ⟨i, hi, him⟩
    · rw [Valid, hnone] at hv
      simp at hv
    · have hnode : (Next s it2).node = nextPtr s i 0 := by
        unfold Next
        rw [hi]
      cases hnp : nextPtr s i 0 with
      | none =>
        left
        rw [hnode, hnp]
      | some j =>
        right
        exact ⟨j, by rw [hnode, hnp], fchain_mem_next hc0 him hnp⟩
  | prev it2 hr2 hv ih =>
    rcases ih with hnone | ⟨i, hi, him⟩
    · rw [Valid, hnone] at hv
      simp at hv
    · have hnode : (Prev cmp s it2).node =
          if FindLessThan cmp s (iterKey s ⟨some i⟩) = 0 then none
          else some (FindLessThan cmp s (iterKey s ⟨some i⟩)) := by
        unfold Prev
        rw [hi]
      by_cases h0 : FindLessThan cmp s (iterKey s ⟨some i⟩) = 0
      · left
        rw [hnode, if_pos h0]
      · right
        rcases FindLessThan_mem hc hw (iterKey s ⟨some i⟩) hc0 with h0b | hmem
        · exact absurd h0b h0
        · exact ⟨_, by rw [hnode, if_neg h0], hmem⟩

/-- C7: on a well-formed list, every iterator state reachable via any
sequence of Seek, SeekToFirst, SeekToLast, Next and Prev (respecting the
Valid preconditions of Next and Prev) never rests on the head sentinel,
and Valid() is true exactly when the current node is non-null and
non-head. -/
theorem c7_iterator_never_head (K : Type) [Inhabited K]
    (cmp : K → K → Int) (hc : IsCmp cmp) (s : SL K) (hw : WF cmp s)
    (it : Iter) (hr : Reach cmp s it) :
    it.node ≠ some 0 ∧
      (Valid it = true ↔ (it.node ≠ none ∧ it.node ≠ some 0)) := by
  obtain ⟨c0, hc0, hsort0, hchar0⟩ := hw.chains 0 (by unfold kMaxHeight; omega)
  rcases reach_good hc hw hr hc0 with hnone | ⟨j, hj, hjm⟩
  · rw [Valid, hnone]
    refine ⟨by simp, ?_⟩
    simp
  · have hj1 : 1 ≤ j := ((hchar0 j).mp hjm).1
    rw [Valid, hj]
    refine ⟨by simp; omega, ?_⟩
    simp
    omega

/-- Witness for C7: SeekToFirst on a one-key list. -/
theorem c7_witness :
    (SeekToFirst (foldInserts natCmp 0 [(5, 1)])).node ≠ some 0 ∧
      (Valid (SeekToFirst (foldInserts natCmp 0 [(5, 1)])) = true ↔
        ((SeekToFirst (foldInserts natCmp 0 [(5, 1)])).node ≠ none ∧
          (SeekToFirst (foldInserts natCmp 0 [(5, 1)])).node ≠ some 0)) :=
  c7_iterator_never_head Nat natCmp natCmp_isCmp
    (foldInserts natCmp 0 [(5, 1)])
    ((foldInserts_spec natCmp_isCmp 0 [(5, 1)] (by decide) (by decide)).1)
    (SeekToFirst (foldInserts natCmp 0 [(5, 1)]))
    (Reach.first iterNew Reach.init)

end SkipL

end LevelDB
